import Mathlib

/-!
# Constraint-propagation Sudoku solver: embedding of `sudoku.c`

The board `unsigned int sudoku[9][9]` is a function from (row, column) to the
cell value; an in-place store `sudoku[i][j] = v` is a point update.  Every C
function that mutates the board returns the new board next to its C result.
`unsigned int` arithmetic is arithmetic modulo `2^32`.
-/

namespace Sudoku

/-- The 9x9 grid of candidate masks, addressed as `sudoku i j`. -/
abbrev Board := Nat → Nat → Nat

/-- The store `sudoku[i][j] = v`. -/
def setCell (sudoku : Board) (i j v : Nat) : Board :=
  fun i' j' => if i' = i ∧ j' = j then v else sudoku i' j'

/-- The store `value_list[k] = v` into the local scratch array. -/
def setSlot (value_list : Nat → Nat) (k v : Nat) : Nat → Nat :=
  fun k' => if k' = k then v else value_list k'

/-- The test `(cell & (cell - 1)) == 0` on `unsigned int`; `cell - 1` wraps to
`0xFFFFFFFF` when `cell` is 0, so the test also accepts 0. -/
def is_declared_cell (cell : Nat) : Bool :=
  cell &&& ((cell + 4294967295) % 4294967296) == 0

/-- Local variables of an eliminator that live across its first pass. -/
structure ElimState where
  sudoku : Board
  changed : Bool
  value_list : Nat → Nat

/-- Inner `k` loop of `eliminate_row`: `sum_of_powers_of_2` over the row as it
currently stands. -/
def row_sum (sudoku : Board) (row_index : Nat) : Nat :=
  (List.range 9).foldl (fun sum_of_powers_of_2 k =>
    if is_declared_cell (sudoku row_index k)
    then (sum_of_powers_of_2 + sudoku row_index k) % 4294967296
    else sum_of_powers_of_2) 0

/-- One iteration `j` of the first pass of `eliminate_row`. -/
def eliminate_row_step (row_index : Nat) (st : ElimState) (j : Nat) : ElimState :=
  let value := st.sudoku row_index j
  let value_list := setSlot st.value_list j value
  if is_declared_cell value || value == 0 then
    { st with value_list := value_list }
  else
    let inverted_sum := (4294967295 - row_sum st.sudoku row_index) &&& 0x1FF
    { sudoku := setCell st.sudoku row_index j (inverted_sum &&& value),
      changed := true,
      value_list := value_list }

/-- `bool eliminate_row(unsigned int sudoku[9][9], int row_index)`: the returned
flag and the board it leaves. -/
def eliminate_row (sudoku : Board) (row_index : Nat) : Bool × Board :=
  let st := (List.range 9).foldl (eliminate_row_step row_index) ⟨sudoku, false, fun _ => 0⟩
  if (List.range 9).any (fun k => st.value_list k == st.sudoku row_index k)
  then (false, st.sudoku)
  else (st.changed, st.sudoku)

/-- Inner `k` loop of `eliminate_col`. -/
def col_sum (sudoku : Board) (col_index : Nat) : Nat :=
  (List.range 9).foldl (fun sum_of_powers_of_2 k =>
    if is_declared_cell (sudoku k col_index)
    then (sum_of_powers_of_2 + sudoku k col_index) % 4294967296
    else sum_of_powers_of_2) 0

/-- One iteration `j` of the first pass of `eliminate_col`. -/
def eliminate_col_step (col_index : Nat) (st : ElimState) (j : Nat) : ElimState :=
  let value := st.sudoku j col_index
  let value_list := setSlot st.value_list j value
  if is_declared_cell value || value == 0 then
    { st with value_list := value_list }
  else
    let inverted_sum := (4294967295 - col_sum st.sudoku col_index) &&& 0x1FF
    { sudoku := setCell st.sudoku j col_index (inverted_sum &&& value),
      changed := true,
      value_list := value_list }

/-- `bool eliminate_col(unsigned int sudoku[9][9], int col_index)`. -/
def eliminate_col (sudoku : Board) (col_index : Nat) : Bool × Board :=
  let st := (List.range 9).foldl (eliminate_col_step col_index) ⟨sudoku, false, fun _ => 0⟩
  if (List.range 9).any (fun k => st.value_list k == st.sudoku k col_index)
  then (false, st.sudoku)
  else (st.changed, st.sudoku)

/-- Inner `k`, `l` loops of `eliminate_box`. -/
def box_sum (sudoku : Board) (start_row start_col : Nat) : Nat :=
  (List.range' start_row 3).foldl (fun acc k =>
    (List.range' start_col 3).foldl (fun sum_of_powers_of_2 l =>
      if is_declared_cell (sudoku k l)
      then (sum_of_powers_of_2 + sudoku k l) % 4294967296
      else sum_of_powers_of_2) acc) 0

/-- One iteration `(i, j)` of the first pass of `eliminate_box`; the scratch
slot written is `value_list[j]`, indexed by the absolute column. -/
def eliminate_box_step (start_row start_col i : Nat) (st : ElimState) (j : Nat) :
    ElimState :=
  let value := st.sudoku i j
  let value_list := setSlot st.value_list j value
  if is_declared_cell value || value == 0 then
    { st with value_list := value_list }
  else
    let inverted_sum := (4294967295 - box_sum st.sudoku start_row start_col) &&& 0x1FF
    { sudoku := setCell st.sudoku i j (inverted_sum &&& value),
      changed := true,
      value_list := value_list }

/-- `bool eliminate_box(unsigned int sudoku[9][9], int row_index, int col_index)`. -/
def eliminate_box (sudoku : Board) (row_index col_index : Nat) : Bool × Board :=
  let start_row := 3 * (row_index / 3)
  let start_col := 3 * (col_index / 3)
  let st := (List.range' start_row 3).foldl (fun st i =>
    (List.range' start_col 3).foldl (eliminate_box_step start_row start_col i) st)
    ⟨sudoku, false, fun _ => 0⟩
  if (List.range 9).any (fun k =>
      (List.range' start_row 3).any (fun i =>
        (List.range' start_col 3).any (fun j => st.value_list k == st.sudoku i j)))
  then (false, st.sudoku)
  else (st.changed, st.sudoku)

/-- The `while (total != 0)` loops of `is_valid`: shift `total` right until it
is zero and decrement `digits` once for every 1 bit shifted out.  The recursion
is on `fuel`; every caller passes `total` itself, which always suffices. -/
def count_down : Nat → Nat → Int → Nat × Int
  | 0, total, digits => (total, digits)
  | fuel + 1, total, digits =>
    if total = 0 then (total, digits)
    else count_down fuel (total >>> 1) (if total &&& 1 = 1 then digits - 1 else digits)

/-- The four running totals of the row/column part of `is_valid`. -/
structure Tally where
  rowTotalSum : Nat
  rowNonZeroDigits : Int
  colTotalSum : Nat
  colNonZeroDigits : Int

/-- Body of the `j` loop of `is_valid`; `none` is the early `return false`. -/
def is_valid_scan (sudoku : Board) (i : Nat) (t : Tally) (j : Nat) : Option Tally :=
  if sudoku i j = 0 ∨ sudoku j i = 0 then none
  else
    let t1 : Tally := if is_declared_cell (sudoku i j)
      then { t with rowTotalSum := t.rowTotalSum + sudoku i j,
                    rowNonZeroDigits := t.rowNonZeroDigits + 1 }
      else t
    let t2 : Tally := if is_declared_cell (sudoku j i)
      then { t1 with colTotalSum := t1.colTotalSum + sudoku j i,
                     colNonZeroDigits := t1.colNonZeroDigits + 1 }
      else t1
    some t2

/-- Body of the `i` loop of `is_valid`: scan row `i` and column `i`, run the two
bit-counting loops, then test the two counters. -/
def is_valid_line (sudoku : Board) (t : Tally) (i : Nat) : Option Tally :=
  match (List.range 9).foldl (fun acc j => acc.bind (fun t => is_valid_scan sudoku i t j))
      (some t) with
  | none => none
  | some t =>
    let r := count_down t.rowTotalSum t.rowTotalSum t.rowNonZeroDigits
    let c := count_down t.colTotalSum t.colTotalSum t.colNonZeroDigits
    if r.2 ≠ 0 ∨ c.2 ≠ 0 then none else some ⟨r.1, r.2, c.1, c.2⟩

/-- Body of the `(k, l)` loop of `is_valid` over the box with corner `(k, l)`;
the pair is `(boxTotalSum, boxNonZeroDigits)`. -/
def is_valid_box (sudoku : Board) (t : Nat × Int) (k l : Nat) : Option (Nat × Int) :=
  let t1 := (List.range' k 3).foldl (fun acc i =>
    (List.range' l 3).foldl (fun (t : Nat × Int) j =>
      if is_declared_cell (sudoku i j) then (t.1 + sudoku i j, t.2 + 1) else t) acc) t
  let r := count_down t1.1 t1.1 t1.2
  if r.2 ≠ 0 then none else some r

/-- `bool is_valid(unsigned int sudoku[9][9])`.  The totals are kept as
mathematical integers: with cells below `2^9` no total exceeds `9 * 256`. -/
def is_valid (sudoku : Board) : Bool :=
  match (List.range 9).foldl (fun acc i => acc.bind (fun t => is_valid_line sudoku t i))
      (some ⟨0, 0, 0, 0⟩) with
  | none => false
  | some _ =>
    match [0, 3, 6].foldl (fun acc k =>
        [0, 3, 6].foldl (fun acc l => acc.bind (fun t => is_valid_box sudoku t k l)) acc)
        (some (0, 0)) with
    | none => false
    | some _ => true

/-- One pass of the body of `while (changed)` in `solve`: the flag `changed` at
the end of the pass and the board. -/
def solve_round (sudoku : Board) : Bool × Board :=
  let s1 := (List.range 9).foldl (fun (st : Bool × Board) i =>
    let r := eliminate_row st.2 i
    (if r.1 then true else st.1, r.2)) (false, sudoku)
  let s2 := (List.range 9).foldl (fun (st : Bool × Board) j =>
    let r := eliminate_col st.2 j
    (if r.1 then true else st.1, r.2)) s1
  [0, 3, 6].foldl (fun st i =>
    [0, 3, 6].foldl (fun (st : Bool × Board) j =>
      let r := eliminate_box st.2 i j
      (if r.1 then true else st.1, r.2)) st) s2

/-- The loop `while (changed)` of `solve`, at most `fuel` passes: the number of
passes executed and the board when it stops, `none` if `fuel` passes were not
enough. -/
def solve_loop : Nat → Board → Option (Nat × Board)
  | 0, _ => none
  | fuel + 1, sudoku =>
    let r := solve_round sudoku
    if r.1 then (solve_loop fuel r.2).map (fun p => (p.1 + 1, p.2))
    else some (1, r.2)

/-- `bool solve(unsigned int sudoku[9][9])` with the loop bounded by `fuel`. -/
def solve (fuel : Nat) (sudoku : Board) : Option (Bool × Board) :=
  if !is_valid sudoku then some (false, sudoku)
  else (solve_loop fuel sudoku).map (fun p => (is_valid p.2, p.2))

/-! ## Vocabulary of the specification -/

/-- Bitwise NOT on a 32-bit `unsigned int`. -/
def not32 (x : Nat) : Nat := 4294967295 - x

/-- The cell has exactly one bit set. -/
def oneBit (v : Nat) : Prop := ∃ k < 32, v = 2 ^ k

instance (v : Nat) : Decidable (oneBit v) := by unfold oneBit; infer_instance

/-- The cell has more than one bit set. -/
def manyBits (v : Nat) : Prop := v ≠ 0 ∧ ¬ oneBit v

instance (v : Nat) : Decidable (manyBits v) := by unfold manyBits; infer_instance

/-- Every cell of the 9x9 grid fits in 9 bits. -/
def InRange (b : Board) : Prop := ∀ i < 9, ∀ j < 9, b i j < 512

instance (b : Board) : Decidable (InRange b) := by unfold InRange; infer_instance

/-- All 81 cells of two boards agree. -/
def SameCells (b b' : Board) : Prop := ∀ i < 9, ∀ j < 9, b' i j = b i j

instance (b b' : Board) : Decidable (SameCells b b') := by unfold SameCells; infer_instance

/-! ## The three eliminators as one scan over a list of cell addresses -/

/-- The guard `(value & (value - 1)) == 0 || value == 0` of the first pass. -/
def skips (v : Nat) : Bool := is_declared_cell v || v == 0

/-- The sum `sum_of_powers_of_2` over the cells at the addresses `cells`. -/
def unit_sum (b : Board) (cells : List (Nat × Nat)) : Nat :=
  cells.foldl (fun s p =>
    if is_declared_cell (b p.1 p.2) then (s + b p.1 p.2) % 4294967296 else s) 0

/-- The effect on the board of one first-pass iteration at address `p`. -/
def scan_step (cells : List (Nat × Nat)) (b : Board) (p : Nat × Nat) : Board :=
  if skips (b p.1 p.2) then b
  else setCell b p.1 p.2 (((4294967295 - unit_sum b cells) &&& 0x1FF) &&& b p.1 p.2)

/-- The effect on the board of the first pass over the addresses `todo`. -/
def scan (cells todo : List (Nat × Nat)) (b : Board) : Board :=
  todo.foldl (scan_step cells) b

/-- One first-pass iteration with its bookkeeping; the scratch slot written for
address `p` is `p.2` in the row and box eliminators and `p.1` in the column one. -/
def unit_step (cells : List (Nat × Nat)) (slot : Nat × Nat → Nat) (st : ElimState)
    (p : Nat × Nat) : ElimState :=
  let value := st.sudoku p.1 p.2
  let value_list := setSlot st.value_list (slot p) value
  if skips value then { st with value_list := value_list }
  else
    { sudoku := setCell st.sudoku p.1 p.2
        (((4294967295 - unit_sum st.sudoku cells) &&& 0x1FF) &&& value),
      changed := true,
      value_list := value_list }

/-- Addresses of row `r`, in scan order. -/
def rowCells (r : Nat) : List (Nat × Nat) := (List.range 9).map (fun j => (r, j))

/-- Addresses of column `c`, in scan order. -/
def colCells (c : Nat) : List (Nat × Nat) := (List.range 9).map (fun j => (j, c))

/-- Addresses of the box with top-left corner `(sr, sc)`, in scan order. -/
def boxCells (sr sc : Nat) : List (Nat × Nat) :=
  [(sr, sc), (sr, sc + 1), (sr, sc + 2),
   (sr + 1, sc), (sr + 1, sc + 1), (sr + 1, sc + 2),
   (sr + 2, sc), (sr + 2, sc + 1), (sr + 2, sc + 2)]

/-- A later board narrows an earlier one: each cell is unchanged, or was not
skipped by the guard and is now the AND of its old value with some mask. -/
def Narrows (b b' : Board) : Prop :=
  ∀ i j, b' i j = b i j ∨ (skips (b i j) = false ∧ ∃ m, b' i j = m &&& b i j)

/-! ## Example boards -/

/-- Row 0 is all `0x1FF` except the cell in column 3, which is `0x10`. -/
def boardRow5 : Board := fun i j => if i = 0 ∧ j = 3 then 0x10 else 0x1FF

/-- The top-left box holds the digits 1 to 8, its last cell and the rest of the
board are open. -/
def boardBox8 : Board := fun i j =>
  if i < 3 ∧ j < 3 ∧ ¬ (i = 2 ∧ j = 2) then 2 ^ (3 * i + j) else 0x1FF

/-- A board with a contradictory (zero) cell in the top-left corner. -/
def boardZero : Board := fun i j => if i = 0 ∧ j = 0 then 0 else 0x1FF

/-- The mask `new` is a bitwise subset of the mask `old`. -/
def SubMask (new old : Nat) : Prop :=
  new &&& not32 old = 0 ∧ ∀ k, new.testBit k = true → old.testBit k = true

/-- The sum `sum_of_powers_of_2` over a unit given as the list of its values. -/
def list_sum (vs : List Nat) : Nat :=
  vs.foldl (fun s v => if is_declared_cell v then (s + v) % 4294967296 else s) 0

/-- The first pass of an eliminator on the list of the unit's values: `done`
holds the cells already visited, in order, the second list those still to visit. -/
def list_scan : List Nat → List Nat → List Nat
  | done, [] => done
  | done, v :: rest =>
    list_scan (done ++ [if skips v then v
      else ((4294967295 - list_sum (done ++ v :: rest)) &&& 0x1FF) &&& v]) rest

/-- The values a board holds at a list of addresses. -/
def valuesAt (b : Board) (cells : List (Nat × Nat)) : List Nat :=
  cells.map (fun p => b p.1 p.2)

/-- The values of a row with the single-bit mask of digit `d` in column `p` and
`0x1FF` elsewhere. -/
def hiddenRow (p d : Nat) : List Nat :=
  (List.range 9).map (fun j => if j = p then 2 ^ (d - 1) else 0x1FF)

/-- The values of the same row once digit `d` is cleared from the open cells. -/
def clearedRow (p d : Nat) : List Nat :=
  (List.range 9).map (fun j => if j = p then 2 ^ (d - 1) else 0x1FF &&& not32 (2 ^ (d - 1)))

/-- Number of 1 bits among the low `w` bit positions of `v`. -/
def bitCount : Nat → Nat → Nat
  | 0, _ => 0
  | w + 1, v => v % 2 + bitCount w (v / 2)

/-- The resolved (single-bit) values among the values of a unit. -/
def resolvedOf (vs : List Nat) : List Nat := vs.filter (fun v => decide (oneBit v))

/-- The resolved cells at the addresses `cells` hold pairwise distinct values. -/
def Distinct (b : Board) (cells : List (Nat × Nat)) : Prop :=
  (resolvedOf (valuesAt b cells)).Nodup

instance (b : Board) (cells : List (Nat × Nat)) : Decidable (Distinct b cells) := by
  unfold Distinct; infer_instance

/-- No cell of the 9x9 grid is 0. -/
def NoZero (b : Board) : Prop := ∀ i < 9, ∀ j < 9, b i j ≠ 0

instance (b : Board) : Decidable (NoZero b) := by unfold NoZero; infer_instance

/-- The validity contract of the specification: no zero cell, and the resolved
cells of every row, column and 3x3 box are pairwise distinct. -/
def SpecValid (b : Board) : Prop :=
  NoZero b ∧ (∀ i < 9, Distinct b (rowCells i)) ∧ (∀ j < 9, Distinct b (colCells j)) ∧
    (∀ k < 3, ∀ l < 3, Distinct b (boxCells (3 * k) (3 * l)))

instance (b : Board) : Decidable (SpecValid b) := by unfold SpecValid; infer_instance

/-- Row `i` and column `i` hold no zero and their resolved cells are pairwise
distinct. -/
def LineOK (b : Board) (i : Nat) : Prop :=
  (∀ j < 9, b i j ≠ 0 ∧ b j i ≠ 0) ∧ Distinct b (rowCells i) ∧ Distinct b (colCells i)

instance (b : Board) (i : Nat) : Decidable (LineOK b i) := by unfold LineOK; infer_instance

/-- A board that is open everywhere. -/
def boardOpen : Board := fun _ _ => 0x1FF

/-- A completed grid: the cell in row `i`, column `j` holds the single-bit mask
of digit `(3 * i + i / 3 + j) % 9 + 1`. -/
def boardSolved : Board := fun i j => 2 ^ ((3 * i + i / 3 + j) % 9)

/-- Every cell has exactly one of the bits 0..8 set. -/
def AllResolved (b : Board) : Prop := ∀ i < 9, ∀ j < 9, ∃ k < 9, b i j = 2 ^ k

instance (b : Board) : Decidable (AllResolved b) := by unfold AllResolved; infer_instance

/-- The unit at the addresses `cells` contains each of the nine single-bit
masks exactly once. -/
def EachOnce (b : Board) (cells : List (Nat × Nat)) : Prop :=
  ∀ k < 9, (valuesAt b cells).count (2 ^ k) = 1

instance (b : Board) (cells : List (Nat × Nat)) : Decidable (EachOnce b cells) := by
  unfold EachOnce; infer_instance

/-- A fully resolved, duplicate-free board: every row, column and box is a
permutation of the nine single-bit masks. -/
def Completed (b : Board) : Prop :=
  AllResolved b ∧ (∀ i < 9, EachOnce b (rowCells i)) ∧ (∀ j < 9, EachOnce b (colCells j)) ∧
    (∀ k < 3, ∀ l < 3, EachOnce b (boxCells (3 * k) (3 * l)))

instance (b : Board) : Decidable (Completed b) := by unfold Completed; infer_instance

/-- Total number of set bits (among the low 32) over the cells at `cells`. -/
def weight (b : Board) (cells : List (Nat × Nat)) : Nat :=
  (cells.map (fun p => bitCount 32 (b p.1 p.2))).sum

/-- The first cell of the last row of each of the nine boxes. -/
def keyCells : List (Nat × Nat) :=
  [(2, 0), (2, 3), (2, 6), (5, 0), (5, 3), (5, 6), (8, 0), (8, 3), (8, 6)]

/-- What holds of the flag `changed` and the board at every point of a round of
`solve` that started from `b0`: the board narrows `b0`, stays within 9 bits, and
once the flag is set the weight over `cells` has dropped. -/
def RoundInv (cells : List (Nat × Nat)) (b0 : Board) (st : Bool × Board) : Prop :=
  Narrows b0 st.2 ∧ InRange st.2 ∧ (st.1 = true → weight st.2 cells < weight b0 cells)

/-- The OR of the single-bit values of a unit. -/
def resolvedMask (vs : List Nat) : Nat := (resolvedOf vs).foldl (fun acc v => acc ||| v) 0

/-- The unit contract with the resolved mask taken when the call starts: every
cell with more than one bit set becomes `old & ~resolved`, every other cell of
the unit keeps its value. -/
def UnitPostStart (b b' : Board) (cells : List (Nat × Nat)) : Prop :=
  ∀ p ∈ cells,
    (manyBits (b p.1 p.2) →
      b' p.1 p.2 = b p.1 p.2 &&& not32 (resolvedMask (valuesAt b cells))) ∧
    (¬ manyBits (b p.1 p.2) → b' p.1 p.2 = b p.1 p.2)

instance (b b' : Board) (cells : List (Nat × Nat)) : Decidable (UnitPostStart b b' cells) := by
  unfold UnitPostStart; infer_instance

/-- The values of the unit as it stands when the cell at position `t` of the
scan order is visited: the cells before it hold their values after the call,
the cell itself and those after it their values before the call. -/
def unitAt (b b' : Board) (cells : List (Nat × Nat)) (t : Nat) : List Nat :=
  valuesAt b' (cells.take t) ++ valuesAt b (cells.drop t)

/-- The unit contract with the resolved mask taken when each cell is visited. -/
def UnitPostScan (b b' : Board) (cells : List (Nat × Nat)) : Prop :=
  ∀ t < cells.length,
    (manyBits (b (cells.getD t (0, 0)).1 (cells.getD t (0, 0)).2) →
      b' (cells.getD t (0, 0)).1 (cells.getD t (0, 0)).2
        = b (cells.getD t (0, 0)).1 (cells.getD t (0, 0)).2
            &&& not32 (resolvedMask (unitAt b b' cells t))) ∧
    (¬ manyBits (b (cells.getD t (0, 0)).1 (cells.getD t (0, 0)).2) →
      b' (cells.getD t (0, 0)).1 (cells.getD t (0, 0)).2
        = b (cells.getD t (0, 0)).1 (cells.getD t (0, 0)).2)

instance (b b' : Board) (cells : List (Nat × Nat)) : Decidable (UnitPostScan b b' cells) := by
  unfold UnitPostScan; infer_instance

/-- Row 0 starts with an open pair `{1, 2}` followed by a resolved 1; the rest of
the board is open. -/
def boardCascade : Board := fun i j =>
  if i = 0 ∧ j = 0 then 3 else if i = 0 ∧ j = 1 then 1 else 0x1FF

/-- One eliminator call made by a round of `solve`. -/
inductive Call where
  | row (i : Nat)
  | col (j : Nat)
  | box (i j : Nat)
  deriving DecidableEq

/-- The eliminator call `c` on board `b`: its return value and the board it leaves. -/
def runCall (b : Board) : Call → Bool × Board
  | Call.row i => eliminate_row b i
  | Call.col j => eliminate_col b j
  | Call.box i j => eliminate_box b i j

/-- The 27 calls of one round of `solve`, in the order the loop body makes them. -/
def roundCalls : List Call :=
  (List.range 9).map Call.row ++ (List.range 9).map Call.col ++
    [Call.box 0 0, Call.box 0 3, Call.box 0 6, Call.box 3 0, Call.box 3 3, Call.box 3 6,
     Call.box 6 0, Call.box 6 3, Call.box 6 6]

/-- The board after a sequence of eliminator calls. -/
def boardAfter (b : Board) (calls : List Call) : Board :=
  calls.foldl (fun b c => (runCall b c).2) b

/-- The return values of a sequence of eliminator calls, in order. -/
def callFlags : Board → List Call → List Bool
  | _, [] => []
  | b, c :: cs => (runCall b c).1 :: callFlags (runCall b c).2 cs

/-- The index of a call is valid: rows and columns in 0..8. -/
def Call.Valid : Call → Prop
  | Call.row i => i < 9
  | Call.col j => j < 9
  | Call.box i j => i < 9 ∧ j < 9

/-- Row 0 holds the digits 1 to 8 after an open first cell, and the cell below
it in row 5 holds the digit 9: valid as given, contradictory once propagated. -/
def boardConflict : Board := fun i j =>
  if i = 0 ∧ 1 ≤ j ∧ j < 9 then 2 ^ (j - 1) else if i = 5 ∧ j = 0 then 0x100 else 0x1FF

/-- The loop `while (value != 1)` of `get_number`, at most `fuel` iterations. -/
def get_number_loop : Nat → Nat → Nat → Nat
  | 0, _, result => result
  | fuel + 1, value, result =>
    if value = 1 then result
    else if value = 0 then 0
    else get_number_loop fuel (value / 2) (result + 1)

/-- `static int get_number(unsigned int sudoku[9][9], int row, int col)` of
`main.c`; the loop halves `value`, so `value + 1` iterations always suffice. -/
def get_number (sudoku : Board) (row col : Nat) : Nat :=
  let value := sudoku row col
  if value = 511 then 0 else get_number_loop (value + 1) value 1

/-- The addresses of all 81 cells. -/
def allCells : List (Nat × Nat) :=
  (List.range 9).flatMap (fun i => (List.range 9).map (fun j => (i, j)))

/-- The board `b'` is the board at the start of some round of the loop of
`solve` when the loop is entered with board `b`. -/
inductive RoundStart : Board → Board → Prop where
  | first (b : Board) : RoundStart b b
  | next (b b' : Board) : (solve_round b).1 = true → RoundStart (solve_round b).2 b' →
      RoundStart b b'

/-- The board `b` is produced by a step of the propagation of `solve` on
`input`: it is the board after some number of the eliminator calls of some round. -/
def Produced (input b : Board) : Prop :=
  ∃ b0 pre post, RoundStart input b0 ∧ roundCalls = pre ++ post ∧ b = boardAfter b0 pre

/-- The digits a grid holds at a list of addresses. -/
def digitsAt (S : Nat → Nat → Nat) (cells : List (Nat × Nat)) : List Nat :=
  cells.map (fun p => S p.1 p.2)

/-- The unit at `cells` is a permutation of 1..9: each digit occurs exactly once. -/
def UnitPerm (S : Nat → Nat → Nat) (cells : List (Nat × Nat)) : Prop :=
  ∀ d < 10, 1 ≤ d → (digitsAt S cells).count d = 1

instance (S : Nat → Nat → Nat) (cells : List (Nat × Nat)) : Decidable (UnitPerm S cells) := by
  unfold UnitPerm; infer_instance

/-- A completed Sudoku grid: digits 1..9, every row, column and 3x3 box a
permutation of 1..9. -/
def IsSolution (S : Nat → Nat → Nat) : Prop :=
  (∀ i < 9, ∀ j < 9, 1 ≤ S i j ∧ S i j ≤ 9) ∧
  (∀ i < 9, UnitPerm S (rowCells i)) ∧ (∀ j < 9, UnitPerm S (colCells j)) ∧
  (∀ k < 3, ∀ l < 3, UnitPerm S (boxCells (3 * k) (3 * l)))

instance (S : Nat → Nat → Nat) : Decidable (IsSolution S) := by
  unfold IsSolution; infer_instance

/-- The grid `S` is compatible with the board `b`: in every cell the bit of the
digit of `S` is set. -/
def Compatible (S : Nat → Nat → Nat) (b : Board) : Prop :=
  ∀ i < 9, ∀ j < 9, (b i j).testBit (S i j - 1) = true

instance (S : Nat → Nat → Nat) (b : Board) : Decidable (Compatible S b) := by
  unfold Compatible; infer_instance

/-- The digits of the completed grid `boardSolved`. -/
def gridSolved : Nat → Nat → Nat := fun i j => (3 * i + i / 3 + j) % 9 + 1

/-- What the propagation lemmas need of a unit of a completed grid: its
addresses lie in the 9x9 grid, are pairwise different and at most nine, and the
grid holds different digits at different addresses of the unit. -/
def UnitOf (S : Nat → Nat → Nat) (cells : List (Nat × Nat)) : Prop :=
  (∀ p ∈ cells, p.1 < 9 ∧ p.2 < 9) ∧ cells.Nodup ∧ cells.length ≤ 9 ∧
  ∀ p ∈ cells, ∀ q ∈ cells, S p.1 p.2 = S q.1 q.2 → p = q

/-- The top-left cell holds the digit 1, every other cell is open. -/
def boardHint : Board := fun i j => if i = 0 ∧ j = 0 then 1 else 0x1FF

/-! ## Basic lemmas -/

theorem setCell_same (b : Board) (i j v : Nat) : setCell b i j v i j = v := by
  simp [setCell]

theorem setCell_other (b : Board) (i j v i' j' : Nat) (h : ¬ (i' = i ∧ j' = j)) :
    setCell b i j v i' j' = b i' j' := by
  simp [setCell, h]

theorem row_sum_eq (b : Board) (r : Nat) : row_sum b r = unit_sum b (rowCells r) := by
  simp [row_sum, unit_sum, rowCells, List.foldl_map]

theorem col_sum_eq (b : Board) (c : Nat) : col_sum b c = unit_sum b (colCells c) := by
  simp [col_sum, unit_sum, colCells, List.foldl_map]

theorem box_sum_eq (b : Board) (sr sc : Nat) :
    box_sum b sr sc = unit_sum b (boxCells sr sc) := by
  simp [box_sum, unit_sum, boxCells, List.range']

theorem eliminate_row_step_eq (r : Nat) (st : ElimState) (j : Nat) :
    eliminate_row_step r st j = unit_step (rowCells r) Prod.snd st (r, j) := by
  simp only [eliminate_row_step, unit_step, skips, row_sum_eq]

theorem eliminate_col_step_eq (c : Nat) (st : ElimState) (j : Nat) :
    eliminate_col_step c st j = unit_step (colCells c) Prod.fst st (j, c) := by
  simp only [eliminate_col_step, unit_step, skips, col_sum_eq]

theorem eliminate_box_step_eq (sr sc i : Nat) (st : ElimState) (j : Nat) :
    eliminate_box_step sr sc i st j = unit_step (boxCells sr sc) Prod.snd st (i, j) := by
  simp only [eliminate_box_step, unit_step, skips, box_sum_eq]

theorem unit_step_sudoku (cells : List (Nat × Nat)) (slot : Nat × Nat → Nat)
    (st : ElimState) (p : Nat × Nat) :
    (unit_step cells slot st p).sudoku = scan_step cells st.sudoku p := by
  unfold unit_step scan_step
  by_cases h : skips (st.sudoku p.1 p.2) = true <;> simp [h]

theorem unit_fold_sudoku (cells : List (Nat × Nat)) (slot : Nat × Nat → Nat)
    (todo : List (Nat × Nat)) (st : ElimState) :
    (todo.foldl (unit_step cells slot) st).sudoku = scan cells todo st.sudoku := by
  induction todo generalizing st with
  | nil => rfl
  | cons p ps ih => simp only [List.foldl_cons, scan, ih, unit_step_sudoku]

theorem row_fold_eq (r : Nat) (st : ElimState) :
    (List.range 9).foldl (eliminate_row_step r) st
      = (rowCells r).foldl (unit_step (rowCells r) Prod.snd) st := by
  have h : eliminate_row_step r = fun st j => unit_step (rowCells r) Prod.snd st (r, j) := by
    funext st j; exact eliminate_row_step_eq r st j
  rw [h]; simp only [rowCells, List.foldl_map]

theorem col_fold_eq (c : Nat) (st : ElimState) :
    (List.range 9).foldl (eliminate_col_step c) st
      = (colCells c).foldl (unit_step (colCells c) Prod.fst) st := by
  have h : eliminate_col_step c = fun st j => unit_step (colCells c) Prod.fst st (j, c) := by
    funext st j; exact eliminate_col_step_eq c st j
  rw [h]; simp only [colCells, List.foldl_map]

theorem box_fold_eq (sr sc : Nat) (st : ElimState) :
    (List.range' sr 3).foldl (fun st i =>
        (List.range' sc 3).foldl (eliminate_box_step sr sc i) st) st
      = (boxCells sr sc).foldl (unit_step (boxCells sr sc) Prod.snd) st := by
  simp only [boxCells, List.range', List.foldl_cons, List.foldl_nil, eliminate_box_step_eq]

theorem eliminate_row_board (b : Board) (r : Nat) :
    (eliminate_row b r).2 = scan (rowCells r) (rowCells r) b := by
  unfold eliminate_row
  simp only [row_fold_eq]
  split <;> simp [unit_fold_sudoku]

theorem eliminate_col_board (b : Board) (c : Nat) :
    (eliminate_col b c).2 = scan (colCells c) (colCells c) b := by
  unfold eliminate_col
  simp only [col_fold_eq]
  split <;> simp [unit_fold_sudoku]

theorem eliminate_box_board (b : Board) (r c : Nat) :
    (eliminate_box b r c).2
      = scan (boxCells (3 * (r / 3)) (3 * (c / 3))) (boxCells (3 * (r / 3)) (3 * (c / 3))) b := by
  unfold eliminate_box
  simp only [box_fold_eq]
  split <;> simp [unit_fold_sudoku]

theorem Narrows.refl (b : Board) : Narrows b b := fun _ _ => Or.inl rfl

theorem Narrows.trans {a b c : Board} (h1 : Narrows a b) (h2 : Narrows b c) : Narrows a c := by
  intro i j
  rcases h2 i j with h | ⟨hs, m, hm⟩
  · rw [h]; exact h1 i j
  · rcases h1 i j with h | ⟨hs', m', hm'⟩
    · rw [h] at hs hm; exact Or.inr ⟨hs, m, hm⟩
    · refine Or.inr ⟨hs', m &&& m', ?_⟩
      rw [hm, hm', Nat.land_assoc]

theorem scan_step_narrows (cells : List (Nat × Nat)) (b : Board) (p : Nat × Nat) :
    Narrows b (scan_step cells b p) := by
  intro i j
  unfold scan_step
  by_cases h : skips (b p.1 p.2) = true
  · simp [h]
  · simp only [h]
    by_cases hij : i = p.1 ∧ j = p.2
    · obtain ⟨rfl, rfl⟩ := hij
      right
      exact ⟨by simpa using h, _, setCell_same _ _ _ _⟩
    · left; simp [setCell, hij]

theorem scan_narrows (cells todo : List (Nat × Nat)) (b : Board) :
    Narrows b (scan cells todo b) := by
  induction todo generalizing b with
  | nil => exact Narrows.refl b
  | cons p ps ih => exact Narrows.trans (scan_step_narrows cells b p) (ih _)

theorem scan_step_frame (cells : List (Nat × Nat)) (b : Board) (p : Nat × Nat) (i j : Nat)
    (h : (i, j) ≠ p) : scan_step cells b p i j = b i j := by
  unfold scan_step
  split
  · rfl
  · apply setCell_other
    rintro ⟨rfl, rfl⟩; exact h rfl

theorem scan_frame (cells todo : List (Nat × Nat)) (b : Board) (i j : Nat)
    (h : (i, j) ∉ todo) : scan cells todo b i j = b i j := by
  induction todo generalizing b with
  | nil => rfl
  | cons p ps ih =>
    simp only [List.mem_cons, not_or] at h
    show scan cells ps (scan_step cells b p) i j = b i j
    rw [ih _ h.2, scan_step_frame cells b p i j h.1]

theorem narrows_and_not (b b' : Board) (h : Narrows b b') (i j : Nat) :
    b' i j &&& not32 (b i j) = 0 := by
  have key : ∀ m v : Nat, (m &&& v) &&& not32 v = 0 := by
    intro m v
    apply Nat.eq_of_testBit_eq
    intro k
    simp only [Nat.testBit_land, Nat.zero_testBit, not32]
    by_cases hv : v < 2 ^ 32
    · have : 4294967295 - v = 2 ^ 32 - (v + 1) := by norm_num; omega
      rw [this, Nat.testBit_two_pow_sub_succ hv]
      cases v.testBit k <;> simp
    · have : 4294967295 - v = 0 := by norm_num at hv; omega
      rw [this]; simp
  rcases h i j with h | ⟨_, m, hm⟩
  · rw [h]; simpa using key (b i j) (b i j)
  · rw [hm]; exact key m _

theorem narrows_skips (b b' : Board) (h : Narrows b b') (i j : Nat)
    (hs : skips (b i j) = true) : b' i j = b i j := by
  rcases h i j with h | ⟨hf, _⟩
  · exact h
  · rw [hs] at hf; cases hf

theorem skips_zero : skips 0 = true := by decide

theorem skips_two_pow : ∀ k < 32, skips (2 ^ k) = true := by decide

theorem skips_of_oneBit (v : Nat) (h : oneBit v) : skips v = true := by
  obtain ⟨k, hk, rfl⟩ := h
  exact skips_two_pow k hk

theorem narrows_subMask (b b' : Board) (h : Narrows b b') (i j : Nat) :
    SubMask (b' i j) (b i j) := by
  refine ⟨narrows_and_not b b' h i j, fun k hk => ?_⟩
  rcases h i j with h | ⟨_, m, hm⟩
  · rw [← h]; exact hk
  · rw [hm, Nat.testBit_land] at hk
    simp only [Bool.and_eq_true] at hk
    exact hk.2

theorem eliminate_row_narrows (b : Board) (r : Nat) : Narrows b (eliminate_row b r).2 := by
  rw [eliminate_row_board]; exact scan_narrows _ _ _

theorem eliminate_col_narrows (b : Board) (c : Nat) : Narrows b (eliminate_col b c).2 := by
  rw [eliminate_col_board]; exact scan_narrows _ _ _

theorem eliminate_box_narrows (b : Board) (r c : Nat) :
    Narrows b (eliminate_box b r c).2 := by
  rw [eliminate_box_board]; exact scan_narrows _ _ _

/-- C4: after `eliminate_row`, `eliminate_col` or `eliminate_box` at a valid
index, every one of the 81 cells satisfies `new & ~old == 0`: its mask is a
bitwise subset of the mask it had before the call. -/
theorem C4_monotonic_narrowing (b : Board) (r c i j : Nat)
    (_hr : r < 9) (_hc : c < 9) (_hi : i < 9) (_hj : j < 9) :
    SubMask ((eliminate_row b r).2 i j) (b i j) ∧
    SubMask ((eliminate_col b c).2 i j) (b i j) ∧
    SubMask ((eliminate_box b r c).2 i j) (b i j) :=
  ⟨narrows_subMask _ _ (eliminate_row_narrows b r) i j,
   narrows_subMask _ _ (eliminate_col_narrows b c) i j,
   narrows_subMask _ _ (eliminate_box_narrows b r c) i j⟩

theorem C4_monotonic_narrowing_witness :
    SubMask ((eliminate_row boardRow5 0).2 0 1) (boardRow5 0 1) ∧
    SubMask ((eliminate_col boardRow5 3).2 0 1) (boardRow5 0 1) ∧
    SubMask ((eliminate_box boardRow5 0 3).2 0 1) (boardRow5 0 1) :=
  C4_monotonic_narrowing boardRow5 0 3 0 1 (by decide) (by decide) (by decide) (by decide)

/-- C5: `eliminate_row`, `eliminate_col` and `eliminate_box` at a valid index
leave every cell that is 0 or has exactly one bit set at its old value. -/
theorem C5_resolved_and_zero_untouched (b : Board) (r c i j : Nat)
    (_hr : r < 9) (_hc : c < 9) (_hi : i < 9) (_hj : j < 9)
    (h : b i j = 0 ∨ oneBit (b i j)) :
    (eliminate_row b r).2 i j = b i j ∧
    (eliminate_col b c).2 i j = b i j ∧
    (eliminate_box b r c).2 i j = b i j := by
  have hs : skips (b i j) = true := by
    rcases h with h | h
    · rw [h]; exact skips_zero
    · exact skips_of_oneBit _ h
  exact ⟨narrows_skips _ _ (eliminate_row_narrows b r) i j hs,
    narrows_skips _ _ (eliminate_col_narrows b c) i j hs,
    narrows_skips _ _ (eliminate_box_narrows b r c) i j hs⟩

theorem C5_resolved_and_zero_untouched_witness :
    (boardRow5 0 3 = 0 ∨ oneBit (boardRow5 0 3)) ∧
    (eliminate_row boardRow5 0).2 0 3 = boardRow5 0 3 ∧
    (eliminate_col boardRow5 3).2 0 3 = boardRow5 0 3 ∧
    (eliminate_box boardRow5 0 3).2 0 3 = boardRow5 0 3 :=
  ⟨by decide, C5_resolved_and_zero_untouched boardRow5 0 3 0 3
    (by decide) (by decide) (by decide) (by decide) (by decide)⟩

/-- C6: on a board with cells in 0..511 that `is_valid` rejects, `solve` returns
false and hands back the very same board, whatever the loop bound. -/
theorem C6_solve_rejects_invalid (b : Board) (_hb : InRange b) (h : is_valid b = false)
    (fuel : Nat) : solve fuel b = some (false, b) := by
  simp [solve, h]

theorem C6_solve_rejects_invalid_witness :
    InRange boardZero ∧ is_valid boardZero = false ∧
    solve 729 boardZero = some (false, boardZero) :=
  ⟨by decide, by decide, C6_solve_rejects_invalid boardZero (by decide) (by decide) 729⟩

/-- C3: on the row that is all `0x1FF` except one cell `0x10`, `eliminate_row`
changes the first cell from `0x1FF` to `0x1EF` and yet returns false, although a
cell has changed. -/
theorem C3_row_change_reported_false :
    boardRow5 0 0 = 0x1FF ∧ (eliminate_row boardRow5 0).2 0 0 = 0x1EF ∧
    (eliminate_row boardRow5 0).1 = false := by
  decide

set_option maxRecDepth 100000 in
/-- C8: on the board whose top-left box holds the digits 1 to 8, which has cells
in 0..511 and which `is_valid` accepts, `solve` returns true after one round and
leaves a board on which `eliminate_row` of row 2 still changes the cell in
column 3 (from 319 to 63): the board it leaves is not a propagation fixpoint. -/
theorem C8_solve_stops_before_fixpoint :
    InRange boardBox8 ∧ is_valid boardBox8 = true ∧
    ∃ b', solve 729 boardBox8 = some (true, b') ∧ b' 2 3 = 319 ∧
      (eliminate_row b' 2).2 2 3 = 63 := by
  have h1 : is_valid boardBox8 = true := by decide!
  have h2 : (solve_round boardBox8).1 = false := by decide!
  have h3 : is_valid (solve_round boardBox8).2 = true := by decide!
  refine ⟨by decide!, h1, (solve_round boardBox8).2, ?_, by decide!, by decide!⟩
  simp [solve, solve_loop, h1, h2, h3]

theorem unit_sum_eq_list_sum (b : Board) (cells : List (Nat × Nat)) :
    unit_sum b cells = list_sum (valuesAt b cells) := by
  simp [unit_sum, list_sum, valuesAt, List.foldl_map]

theorem valuesAt_congr (b b' : Board) (cells : List (Nat × Nat))
    (h : ∀ p ∈ cells, b' p.1 p.2 = b p.1 p.2) : valuesAt b' cells = valuesAt b cells := by
  unfold valuesAt
  exact List.map_congr_left h

theorem scan_eq_list_scan (cells : List (Nat × Nat)) (hn : cells.Nodup) :
    ∀ (todo pre : List (Nat × Nat)) (b : Board), pre ++ todo = cells →
      valuesAt (scan cells todo b) cells = list_scan (valuesAt b pre) (valuesAt b todo) := by
  intro todo
  induction todo with
  | nil =>
    intro pre b h
    simp only [List.append_nil] at h
    subst h
    simp [scan, list_scan, valuesAt]
  | cons p ps ih =>
    intro pre b h
    have hn' : (pre ++ p :: ps).Nodup := h ▸ hn
    have hsplit : (pre ++ [p]) ++ ps = cells := by rw [← h]; simp
    have hpre : ∀ q ∈ pre, q ≠ p := by
      intro q hq hqp
      subst hqp
      have := (List.nodup_append.1 hn').2.2
      exact this hq (List.mem_cons_self _ _)
    have hps : ∀ q ∈ ps, q ≠ p := by
      intro q hq hqp
      subst hqp
      have := (List.nodup_append.1 hn').2.1
      exact (List.nodup_cons.1 this).1 hq
    have h1 : valuesAt (scan_step cells b p) pre = valuesAt b pre :=
      valuesAt_congr _ _ _ (fun q hq => scan_step_frame cells b p q.1 q.2 (hpre q hq))
    have h2 : valuesAt (scan_step cells b p) ps = valuesAt b ps :=
      valuesAt_congr _ _ _ (fun q hq => scan_step_frame cells b p q.1 q.2 (hps q hq))
    have h3 : scan_step cells b p p.1 p.2 =
        (if skips (b p.1 p.2) then b p.1 p.2
         else ((4294967295 - list_sum (valuesAt b pre ++ b p.1 p.2 :: valuesAt b ps))
           &&& 0x1FF) &&& b p.1 p.2) := by
      have hs : unit_sum b cells = list_sum (valuesAt b pre ++ b p.1 p.2 :: valuesAt b ps) := by
        rw [unit_sum_eq_list_sum, ← h]; simp [valuesAt]
      unfold scan_step
      by_cases hk : skips (b p.1 p.2) = true
      · simp [hk]
      · simp [hk, setCell_same, hs]
    have := ih (pre ++ [p]) (scan_step cells b p) hsplit
    show valuesAt (scan cells ps (scan_step cells b p)) cells = _
    rw [this, h2]
    have : valuesAt (scan_step cells b p) (pre ++ [p])
        = valuesAt b pre ++ [scan_step cells b p p.1 p.2] := by
      rw [← h1]; simp [valuesAt]
    rw [this, h3]
    simp [valuesAt, list_scan]

theorem scan_values (cells : List (Nat × Nat)) (hn : cells.Nodup) (b : Board) :
    valuesAt (scan cells cells b) cells = list_scan [] (valuesAt b cells) := by
  simpa [valuesAt] using scan_eq_list_scan cells hn cells [] b rfl

theorem rowCells_nodup (r : Nat) : (rowCells r).Nodup := by
  simp [rowCells, List.range_succ]

theorem colCells_nodup (c : Nat) : (colCells c).Nodup := by
  simp [colCells, List.range_succ]

theorem boxCells_nodup (sr sc : Nat) : (boxCells sr sc).Nodup := by
  simp [boxCells]

theorem unit_step_value_list_other (cells : List (Nat × Nat)) (slot : Nat × Nat → Nat)
    (st : ElimState) (p : Nat × Nat) (k : Nat) (h : slot p ≠ k) :
    (unit_step cells slot st p).value_list k = st.value_list k := by
  have hk : ¬ k = slot p := fun e => h e.symm
  unfold unit_step
  by_cases hs : skips (st.sudoku p.1 p.2) = true <;> simp [hs, setSlot, hk]

theorem unit_step_value_list_same (cells : List (Nat × Nat)) (slot : Nat × Nat → Nat)
    (st : ElimState) (p : Nat × Nat) :
    (unit_step cells slot st p).value_list (slot p) = st.sudoku p.1 p.2 := by
  unfold unit_step
  by_cases hs : skips (st.sudoku p.1 p.2) = true <;> simp [hs, setSlot]

theorem unit_fold_value_list_other (cells : List (Nat × Nat)) (slot : Nat × Nat → Nat)
    (todo : List (Nat × Nat)) (st : ElimState) (k : Nat) (h : ∀ q ∈ todo, slot q ≠ k) :
    (todo.foldl (unit_step cells slot) st).value_list k = st.value_list k := by
  induction todo generalizing st with
  | nil => rfl
  | cons q qs ih =>
    rw [List.foldl_cons, ih _ (fun q' hq' => h q' (List.mem_cons_of_mem _ hq')),
      unit_step_value_list_other _ _ _ _ _ (h q (List.mem_cons_self _ _))]

/-- The scratch slot of an address holds the value the cell had when the pass
started, provided the address is not visited earlier and no later address
writes the same slot. -/
theorem unit_fold_value_list (cells : List (Nat × Nat)) (slot : Nat × Nat → Nat)
    (pre post : List (Nat × Nat)) (p : Nat × Nat) (st : ElimState)
    (hpre : p ∉ pre) (hpost : ∀ q ∈ post, slot q ≠ slot p) :
    ((pre ++ p :: post).foldl (unit_step cells slot) st).value_list (slot p)
      = st.sudoku p.1 p.2 := by
  rw [List.foldl_append, List.foldl_cons, unit_fold_value_list_other _ _ _ _ _ hpost,
    unit_step_value_list_same, unit_fold_sudoku, scan_frame _ _ _ _ _ hpre]

theorem unit_fold_value_list_inj (cells : List (Nat × Nat)) (slot : Nat × Nat → Nat)
    (todo : List (Nat × Nat)) (st : ElimState) (hn : todo.Nodup)
    (hinj : ∀ p ∈ todo, ∀ q ∈ todo, slot p = slot q → p = q) (p : Nat × Nat)
    (hp : p ∈ todo) :
    (todo.foldl (unit_step cells slot) st).value_list (slot p) = st.sudoku p.1 p.2 := by
  obtain ⟨pre, post, rfl⟩ := List.append_of_mem hp
  have hn2 := List.nodup_append.1 hn
  apply unit_fold_value_list
  · intro hmem
    exact hn2.2.2 hmem (List.mem_cons_self _ _)
  · intro q hq hsl
    have hqmem : q ∈ pre ++ p :: post :=
      List.mem_append_right _ (List.mem_cons_of_mem _ hq)
    have : q = p := hinj q hqmem p hp hsl
    subst this
    exact (List.nodup_cons.1 hn2.2.1).1 hq

/-- When `eliminate_row` returns true, every cell of the row differs from its
value before the call. -/
theorem eliminate_row_true (b : Board) (r : Nat) (h : (eliminate_row b r).1 = true) :
    ∀ k < 9, (eliminate_row b r).2 r k ≠ b r k := by
  intro k hk heq
  have hb := eliminate_row_board b r
  unfold eliminate_row at h hb
  simp only [row_fold_eq] at h hb
  have hvl := unit_fold_value_list_inj (rowCells r) Prod.snd (rowCells r)
    ⟨b, false, fun _ => 0⟩ (rowCells_nodup r)
    (by simp only [rowCells, List.mem_map, List.mem_range]
        rintro p ⟨x, _, rfl⟩ q ⟨y, _, rfl⟩ hxy
        simp only at hxy; rw [hxy])
    (r, k) (by simp only [rowCells, List.mem_map, List.mem_range]; exact ⟨k, hk, rfl⟩)
  simp only at hvl
  split at h
  · simp at h
  · rename_i hany
    apply hany
    rw [List.any_eq_true]
    refine ⟨k, List.mem_range.2 hk, ?_⟩
    rw [hvl]
    simp only [unit_fold_sudoku, beq_iff_eq]
    rw [← eliminate_row_board]
    exact heq.symm

/-- When `eliminate_col` returns true, every cell of the column differs from
its value before the call. -/
theorem eliminate_col_true (b : Board) (c : Nat) (h : (eliminate_col b c).1 = true) :
    ∀ k < 9, (eliminate_col b c).2 k c ≠ b k c := by
  intro k hk heq
  unfold eliminate_col at h
  simp only [col_fold_eq] at h
  have hvl := unit_fold_value_list_inj (colCells c) Prod.fst (colCells c)
    ⟨b, false, fun _ => 0⟩ (colCells_nodup c)
    (by simp only [colCells, List.mem_map, List.mem_range]
        rintro p ⟨x, _, rfl⟩ q ⟨y, _, rfl⟩ hxy
        simp only at hxy; rw [hxy])
    (k, c) (by simp only [colCells, List.mem_map, List.mem_range]; exact ⟨k, hk, rfl⟩)
  simp only at hvl
  split at h
  · simp at h
  · rename_i hany
    apply hany
    rw [List.any_eq_true]
    refine ⟨k, List.mem_range.2 hk, ?_⟩
    rw [hvl]
    simp only [unit_fold_sudoku, beq_iff_eq]
    rw [← eliminate_col_board]
    exact heq.symm

/-- When `eliminate_box` returns true, the first cell of the last row of the
box differs from its value before the call. -/
theorem eliminate_box_true (b : Board) (r c : Nat) (hc : c < 9)
    (h : (eliminate_box b r c).1 = true) :
    (eliminate_box b r c).2 (3 * (r / 3) + 2) (3 * (c / 3))
      ≠ b (3 * (r / 3) + 2) (3 * (c / 3)) := by
  intro heq
  unfold eliminate_box at h
  simp only [box_fold_eq] at h
  have hvl : ((boxCells (3 * (r / 3)) (3 * (c / 3))).foldl
      (unit_step (boxCells (3 * (r / 3)) (3 * (c / 3))) Prod.snd)
      ⟨b, false, fun _ => 0⟩).value_list (3 * (c / 3)) = b (3 * (r / 3) + 2) (3 * (c / 3)) :=
    unit_fold_value_list (boxCells (3 * (r / 3)) (3 * (c / 3))) Prod.snd
    [(3 * (r / 3), 3 * (c / 3)), (3 * (r / 3), 3 * (c / 3) + 1), (3 * (r / 3), 3 * (c / 3) + 2),
     (3 * (r / 3) + 1, 3 * (c / 3)), (3 * (r / 3) + 1, 3 * (c / 3) + 1),
     (3 * (r / 3) + 1, 3 * (c / 3) + 2)]
    [(3 * (r / 3) + 2, 3 * (c / 3) + 1), (3 * (r / 3) + 2, 3 * (c / 3) + 2)]
    (3 * (r / 3) + 2, 3 * (c / 3)) ⟨b, false, fun _ => 0⟩ (by simp) (by simp)
  split at h
  · simp at h
  · rename_i hany
    apply hany
    rw [List.any_eq_true]
    refine ⟨3 * (c / 3), List.mem_range.2 (by omega), ?_⟩
    rw [List.any_eq_true]
    refine ⟨3 * (r / 3) + 2, by simp [List.range'], ?_⟩
    rw [List.any_eq_true]
    refine ⟨3 * (c / 3), by simp [List.range'], ?_⟩
    rw [hvl]
    simp only [unit_fold_sudoku, beq_iff_eq]
    rw [← eliminate_box_board]
    exact heq.symm

theorem valuesAt_row (b : Board) (r : Nat) :
    valuesAt b (rowCells r) = (List.range 9).map (b r) := by
  simp [valuesAt, rowCells]

theorem valuesAt_col (b : Board) (c : Nat) :
    valuesAt b (colCells c) = (List.range 9).map (fun i => b i c) := by
  simp [valuesAt, colCells]

theorem eliminate_row_values (b : Board) (r : Nat) :
    (List.range 9).map ((eliminate_row b r).2 r)
      = list_scan [] ((List.range 9).map (b r)) := by
  rw [← valuesAt_row, ← valuesAt_row, eliminate_row_board, scan_values _ (rowCells_nodup r)]

theorem eliminate_row_frame (b : Board) (r i j : Nat) (h : i ≠ r) :
    (eliminate_row b r).2 i j = b i j := by
  rw [eliminate_row_board]
  apply scan_frame
  simp only [rowCells, List.mem_map, List.mem_range, Prod.mk.injEq, not_exists, not_and]
  intro x _ hx
  exact absurd hx.symm h

set_option maxRecDepth 100000 in
theorem list_scan_hiddenRow :
    ∀ p < 9, ∀ d < 10, 1 ≤ d → list_scan [] (hiddenRow p d) = clearedRow p d := by
  decide!

set_option maxRecDepth 100000 in
theorem list_scan_clearedRow :
    ∀ p < 9, ∀ d < 10, 1 ≤ d → list_scan [] (clearedRow p d) = clearedRow p d := by
  decide!

/-- C10: in a row whose only resolved cell holds digit `d` and whose other
eight cells are `0x1FF`, `eliminate_row` keeps the resolved cell and turns every
other cell into `0x1FF & ~m`; a second call changes no cell and returns false. -/
theorem C10_hidden_single_row (b : Board) (r p d : Nat) (hr : r < 9) (hp : p < 9)
    (hd1 : 1 ≤ d) (hd9 : d ≤ 9) (hcell : b r p = 2 ^ (d - 1))
    (hrest : ∀ j < 9, j ≠ p → b r j = 0x1FF) :
    (eliminate_row b r).2 r p = 2 ^ (d - 1) ∧
    (∀ j < 9, j ≠ p → (eliminate_row b r).2 r j = 0x1FF &&& not32 (2 ^ (d - 1))) ∧
    (eliminate_row (eliminate_row b r).2 r).1 = false ∧
    SameCells (eliminate_row b r).2 (eliminate_row (eliminate_row b r).2 r).2 := by
  have hL : (List.range 9).map (b r) = hiddenRow p d := by
    unfold hiddenRow
    apply List.map_congr_left
    intro j hj
    by_cases hjp : j = p
    · subst hjp; simp [hcell]
    · simp [hjp, hrest j (List.mem_range.1 hj) hjp]
  have h1 : (List.range 9).map ((eliminate_row b r).2 r) = clearedRow p d := by
    rw [eliminate_row_values, hL]
    exact list_scan_hiddenRow p hp d (by omega) hd1
  have h2 : (List.range 9).map ((eliminate_row (eliminate_row b r).2 r).2 r)
      = (List.range 9).map ((eliminate_row b r).2 r) := by
    rw [eliminate_row_values, h1]
    exact list_scan_clearedRow p hp d (by omega) hd1
  have h1' := List.map_inj_left.1 h1
  have h2' := List.map_inj_left.1 h2
  refine ⟨?_, ?_, ?_, ?_⟩
  · simpa using h1' p (List.mem_range.2 hp)
  · intro j hj hjp
    simpa [hjp] using h1' j (List.mem_range.2 hj)
  · by_contra hne
    have ht : (eliminate_row (eliminate_row b r).2 r).1 = true := by
      simpa using hne
    exact eliminate_row_true _ r ht p hp (h2' p (List.mem_range.2 hp))
  · intro i _ j hj
    by_cases hir : i = r
    · subst hir; exact h2' j (List.mem_range.2 hj)
    · exact eliminate_row_frame _ r i j hir

theorem C10_hidden_single_row_witness :
    (boardRow5 0 3 = 2 ^ (5 - 1) ∧ ∀ j < 9, j ≠ 3 → boardRow5 0 j = 0x1FF) ∧
    (eliminate_row boardRow5 0).2 0 3 = 2 ^ (5 - 1) ∧
    (∀ j < 9, j ≠ 3 → (eliminate_row boardRow5 0).2 0 j = 0x1FF &&& not32 (2 ^ (5 - 1))) ∧
    (eliminate_row (eliminate_row boardRow5 0).2 0).1 = false ∧
    SameCells (eliminate_row boardRow5 0).2 (eliminate_row (eliminate_row boardRow5 0).2 0).2 :=
  ⟨by decide, C10_hidden_single_row boardRow5 0 3 5 (by decide) (by decide) (by decide)
    (by decide) (by decide) (by decide)⟩

theorem bitCount_zero (w : Nat) : bitCount w 0 = 0 := by
  induction w with
  | zero => rfl
  | succ w ih => simp [bitCount, ih]

theorem count_down_eq (fuel : Nat) : ∀ (w total : Nat) (digits : Int),
    total < 2 ^ fuel → total < 2 ^ w →
    count_down fuel total digits = (0, digits - bitCount w total) := by
  induction fuel with
  | zero =>
    intro w total digits h _
    have : total = 0 := by simpa using h
    subst this
    simp [count_down, bitCount_zero]
  | succ fuel ih =>
    intro w total digits h hw
    unfold count_down
    by_cases h0 : total = 0
    · subst h0; simp [bitCount_zero]
    · cases w with
      | zero => exact absurd (by simpa using hw) h0
      | succ w =>
        simp only [h0, if_false, Nat.and_one_is_mod, Nat.shiftRight_one]
        have h1 : total / 2 < 2 ^ fuel := by rw [pow_succ] at h; omega
        have h2 : total / 2 < 2 ^ w := by rw [pow_succ] at hw; omega
        rw [ih w (total / 2) _ h1 h2]
        have hm : total % 2 = 0 ∨ total % 2 = 1 := by omega
        rcases hm with hm | hm
        · simp [bitCount, hm]
        · simp [bitCount, hm]; ring

theorem bitCount_succ_le (w : Nat) : ∀ a, bitCount w (a + 1) ≤ bitCount w a + 1 := by
  induction w with
  | zero => intro a; simp [bitCount]
  | succ w ih =>
    intro a
    simp only [bitCount]
    have hm : a % 2 = 0 ∨ a % 2 = 1 := by omega
    rcases hm with hm | hm
    · have h1 : (a + 1) % 2 = 1 := by omega
      have h2 : (a + 1) / 2 = a / 2 := by omega
      rw [h1, h2, hm]; omega
    · have h1 : (a + 1) % 2 = 0 := by omega
      have h2 : (a + 1) / 2 = a / 2 + 1 := by omega
      rw [h1, h2, hm]
      have := ih (a / 2)
      omega

theorem add_two_pow_succ_mod (a e : Nat) : (a + 2 ^ (e + 1)) % 2 = a % 2 := by
  rw [pow_succ]; omega

theorem add_two_pow_succ_div (a e : Nat) : (a + 2 ^ (e + 1)) / 2 = a / 2 + 2 ^ e := by
  rw [pow_succ]; omega

/-- Adding a power of two raises the bit count by at most one. -/
theorem bitCount_add_le (e : Nat) : ∀ w a, bitCount w (a + 2 ^ e) ≤ bitCount w a + 1 := by
  induction e with
  | zero => intro w a; simpa using bitCount_succ_le w a
  | succ e ih =>
    intro w a
    cases w with
    | zero => simp [bitCount]
    | succ w =>
      simp only [bitCount, add_two_pow_succ_mod, add_two_pow_succ_div]
      have := ih w (a / 2)
      omega

/-- Adding a power of two whose bit is already set does not raise the bit count. -/
theorem bitCount_add_set (e : Nat) : ∀ w a, a.testBit e = true →
    bitCount w (a + 2 ^ e) ≤ bitCount w a := by
  induction e with
  | zero =>
    intro w a h
    have hm : a % 2 = 1 := by simpa [Nat.testBit_zero] using h
    cases w with
    | zero => simp [bitCount]
    | succ w =>
      simp only [bitCount, pow_zero]
      have h1 : (a + 1) % 2 = 0 := by omega
      have h2 : (a + 1) / 2 = a / 2 + 1 := by omega
      rw [h1, h2, hm]
      have := bitCount_succ_le w (a / 2)
      omega
  | succ e ih =>
    intro w a h
    rw [Nat.testBit_succ] at h
    cases w with
    | zero => simp [bitCount]
    | succ w =>
      simp only [bitCount, add_two_pow_succ_mod, add_two_pow_succ_div]
      have := ih w (a / 2) h
      omega

/-- Adding a power of two whose bit is clear raises the bit count by one. -/
theorem bitCount_add_clear (e : Nat) : ∀ w a, a.testBit e = false → e < w →
    bitCount w (a + 2 ^ e) = bitCount w a + 1 := by
  induction e with
  | zero =>
    intro w a h hw
    have hm : a % 2 = 0 := by
      have := h; simp [Nat.testBit_zero] at this; omega
    cases w with
    | zero => omega
    | succ w =>
      simp only [bitCount, pow_zero]
      have h1 : (a + 1) % 2 = 1 := by omega
      have h2 : (a + 1) / 2 = a / 2 := by omega
      rw [h1, h2, hm]; omega
  | succ e ih =>
    intro w a h hw
    rw [Nat.testBit_succ] at h
    cases w with
    | zero => omega
    | succ w =>
      simp only [bitCount, add_two_pow_succ_mod, add_two_pow_succ_div]
      rw [ih w (a / 2) h (by omega)]
      omega

/-- Adding a power of two whose bit is clear sets that bit and no other. -/
theorem testBit_add_clear (e : Nat) : ∀ a k, a.testBit e = false →
    (a + 2 ^ e).testBit k = (a.testBit k || decide (k = e)) := by
  induction e with
  | zero =>
    intro a k h
    have hm : a % 2 = 0 := by
      have := h; simp [Nat.testBit_zero] at this; omega
    cases k with
    | zero =>
      have h1 : (a + 1) % 2 = 1 := by omega
      simp [Nat.testBit_zero, h1]
    | succ k =>
      have h2 : (a + 1) / 2 = a / 2 := by omega
      simp [Nat.testBit_succ, h2]
  | succ e ih =>
    intro a k h
    rw [Nat.testBit_succ] at h
    cases k with
    | zero => simp [Nat.testBit_zero, add_two_pow_succ_mod]
    | succ k =>
      rw [Nat.testBit_succ, add_two_pow_succ_div, ih (a / 2) k h, Nat.testBit_succ]
      simp

theorem powers_bitCount_le (w : Nat) (vs : List Nat) (h : ∀ v ∈ vs, ∃ e < w, v = 2 ^ e) :
    bitCount w vs.sum ≤ vs.length := by
  induction vs with
  | nil => simp [bitCount_zero]
  | cons v vs ih =>
    obtain ⟨e, _, rfl⟩ := h v (List.mem_cons_self _ _)
    have := ih (fun v hv => h v (List.mem_cons_of_mem _ hv))
    have := bitCount_add_le e w vs.sum
    simp only [List.sum_cons, List.length_cons]
    rw [Nat.add_comm]
    omega

theorem powers_nodup_bits (w : Nat) (vs : List Nat) (h : ∀ v ∈ vs, ∃ e < w, v = 2 ^ e)
    (hn : vs.Nodup) :
    (∀ k, vs.sum.testBit k = true ↔ 2 ^ k ∈ vs) ∧ bitCount w vs.sum = vs.length := by
  induction vs with
  | nil => simp [bitCount_zero]
  | cons v vs ih =>
    obtain ⟨e, he, rfl⟩ := h v (List.mem_cons_self _ _)
    obtain ⟨hnot, hn'⟩ := List.nodup_cons.1 hn
    obtain ⟨ihb, ihc⟩ := ih (fun v hv => h v (List.mem_cons_of_mem _ hv)) hn'
    have hclear : vs.sum.testBit e = false := by
      by_contra hc
      have : vs.sum.testBit e = true := by simpa using hc
      exact hnot ((ihb e).1 this)
    simp only [List.sum_cons, List.length_cons]
    rw [Nat.add_comm]
    refine ⟨fun k => ?_, ?_⟩
    · rw [testBit_add_clear e _ k hclear, List.mem_cons, Bool.or_eq_true, ihb k,
        decide_eq_true_eq]
      constructor
      · rintro (h1 | h1)
        · exact Or.inr h1
        · exact Or.inl (by rw [h1])
      · rintro (h1 | h1)
        · exact Or.inr (Nat.pow_right_injective (le_refl 2) h1)
        · exact Or.inl h1
    · rw [bitCount_add_clear e w _ hclear he, ihc]

theorem powers_count_nodup (w : Nat) (vs : List Nat) (h : ∀ v ∈ vs, ∃ e < w, v = 2 ^ e)
    (hc : bitCount w vs.sum = vs.length) : vs.Nodup := by
  induction vs with
  | nil => exact List.nodup_nil
  | cons v vs ih =>
    have h' : ∀ v ∈ vs, ∃ e < w, v = 2 ^ e := fun v hv => h v (List.mem_cons_of_mem _ hv)
    obtain ⟨e, he, rfl⟩ := h v (List.mem_cons_self _ _)
    simp only [List.sum_cons, List.length_cons] at hc
    rw [Nat.add_comm] at hc
    have hle := powers_bitCount_le w vs h'
    have hadd := bitCount_add_le e w vs.sum
    have heq : bitCount w vs.sum = vs.length := by omega
    have hn' := ih h' heq
    refine List.nodup_cons.2 ⟨fun hmem => ?_, hn'⟩
    have hset : vs.sum.testBit e = true := ((powers_nodup_bits w vs h' hn').1 e).2 hmem
    have := bitCount_add_set e w vs.sum hset
    omega

/-- For powers of two with exponents below `w`: the bit count of the sum equals
the number of addends exactly when the addends are pairwise distinct. -/
theorem powers_count_iff (w : Nat) (vs : List Nat) (h : ∀ v ∈ vs, ∃ e < w, v = 2 ^ e) :
    bitCount w vs.sum = vs.length ↔ vs.Nodup :=
  ⟨powers_count_nodup w vs h, fun hn => (powers_nodup_bits w vs h hn).2⟩

set_option maxRecDepth 100000 in
theorem declared_iff_oneBit : ∀ v < 512, v ≠ 0 → (is_declared_cell v = true ↔ oneBit v) := by
  decide!

theorem is_valid_scan_zero (b : Board) (i : Nat) (t : Tally) (j : Nat)
    (h : b i j = 0 ∨ b j i = 0) : is_valid_scan b i t j = none := by
  simp only [is_valid_scan, h, if_true]

theorem is_valid_scan_nonzero (b : Board) (i : Nat) (t : Tally) (j : Nat)
    (h : ¬ (b i j = 0 ∨ b j i = 0)) :
    is_valid_scan b i t j = some
      ⟨t.rowTotalSum + (if is_declared_cell (b i j) then b i j else 0),
       t.rowNonZeroDigits + (if is_declared_cell (b i j) then 1 else 0),
       t.colTotalSum + (if is_declared_cell (b j i) then b j i else 0),
       t.colNonZeroDigits + (if is_declared_cell (b j i) then 1 else 0)⟩ := by
  simp only [is_valid_scan, h, if_false]
  by_cases h1 : is_declared_cell (b i j) = true <;>
    by_cases h2 : is_declared_cell (b j i) = true <;> simp [h1, h2]

theorem fold_bind_none {α β : Type} (f : α → β → Option α) (l : List β) :
    l.foldl (fun acc x => acc.bind (fun t => f t x)) none = none := by
  induction l with
  | nil => rfl
  | cons x xs ih => simpa using ih

theorem scan_fold_none (b : Board) (i : Nat) (js : List Nat) (t : Tally)
    (h : ∃ j ∈ js, b i j = 0 ∨ b j i = 0) :
    js.foldl (fun acc j => acc.bind (fun t => is_valid_scan b i t j)) (some t) = none := by
  induction js generalizing t with
  | nil => simp at h
  | cons j js ih =>
    simp only [List.foldl_cons, Option.some_bind]
    by_cases hz : b i j = 0 ∨ b j i = 0
    · rw [is_valid_scan_zero b i t j hz]
      exact fold_bind_none _ _
    · obtain ⟨j', hj', hz'⟩ := h
      have hmem : j' ∈ js := by
        rcases List.mem_cons.1 hj' with e | e
        · subst e; exact absurd hz' hz
        · exact e
      rw [is_valid_scan_nonzero b i t j hz]
      exact ih _ ⟨j', hmem, hz'⟩

theorem scan_fold_some (b : Board) (i : Nat) (js : List Nat) (t : Tally)
    (h : ∀ j ∈ js, b i j ≠ 0 ∧ b j i ≠ 0) :
    js.foldl (fun acc j => acc.bind (fun t => is_valid_scan b i t j)) (some t) =
      some ⟨t.rowTotalSum + ((js.map (fun j => b i j)).filter is_declared_cell).sum,
            t.rowNonZeroDigits + ((js.map (fun j => b i j)).filter is_declared_cell).length,
            t.colTotalSum + ((js.map (fun j => b j i)).filter is_declared_cell).sum,
            t.colNonZeroDigits + ((js.map (fun j => b j i)).filter is_declared_cell).length⟩ := by
  induction js generalizing t with
  | nil => simp
  | cons j js ih =>
    have hj := h j (List.mem_cons_self _ _)
    have hz : ¬ (b i j = 0 ∨ b j i = 0) := by tauto
    rw [List.foldl_cons, Option.some_bind, is_valid_scan_nonzero b i t j hz,
      ih _ (fun j' hj' => h j' (List.mem_cons_of_mem _ hj'))]
    by_cases h1 : is_declared_cell (b i j) = true <;>
      by_cases h2 : is_declared_cell (b j i) = true <;>
      simp [h1, h2, List.filter_cons] <;> omega

theorem sum_le_of_lt (vs : List Nat) (h : ∀ v ∈ vs, v < 512) : vs.sum ≤ 511 * vs.length := by
  induction vs with
  | nil => simp
  | cons v vs ih =>
    have := h v (List.mem_cons_self _ _)
    have := ih (fun v hv => h v (List.mem_cons_of_mem _ hv))
    simp only [List.sum_cons, List.length_cons]
    omega

theorem filter_declared_eq (vs : List Nat) (hr : ∀ v ∈ vs, v < 512) (hz : ∀ v ∈ vs, v ≠ 0) :
    vs.filter is_declared_cell = resolvedOf vs := by
  unfold resolvedOf
  apply List.filter_congr
  intro v hv
  have := declared_iff_oneBit v (hr v hv) (hz v hv)
  by_cases h : oneBit v
  · simp [h, this.2 h]
  · have hd : is_declared_cell v = false := by
      cases hdc : is_declared_cell v
      · rfl
      · exact absurd (this.1 hdc) h
    simp [h, hd]

/-- The bit-counting loop leaves the counter at zero exactly when the resolved
values that were summed are pairwise distinct. -/
theorem count_down_resolved (vs : List Nat) (hr : ∀ v ∈ vs, v < 512) (hl : vs.length ≤ 9)
    (n : Int) :
    count_down (resolvedOf vs).sum (resolvedOf vs).sum n
      = (0, n - bitCount 32 (resolvedOf vs).sum) ∧
    (bitCount 32 (resolvedOf vs).sum = (resolvedOf vs).length ↔ (resolvedOf vs).Nodup) := by
  have hmem : ∀ v ∈ resolvedOf vs, v ∈ vs ∧ oneBit v := by
    intro v hv
    simpa [resolvedOf] using hv
  have hlen : (resolvedOf vs).length ≤ 9 :=
    le_trans (List.length_filter_le _ _) hl
  have hsum : (resolvedOf vs).sum < 2 ^ 32 := by
    have := sum_le_of_lt (resolvedOf vs) (fun v hv => hr v (hmem v hv).1)
    have : (resolvedOf vs).sum ≤ 511 * 9 := le_trans this (Nat.mul_le_mul_left _ hlen)
    omega
  refine ⟨count_down_eq _ 32 _ n (Nat.lt_two_pow _) hsum, ?_⟩
  exact powers_count_iff 32 _ (fun v hv => (hmem v hv).2)

/-- The row/column pass of `is_valid` for index `i`, started with all totals at
zero, succeeds (leaving the totals at zero again) exactly when `LineOK` holds. -/

theorem is_valid_line_eq (b : Board) (hb : InRange b) (i : Nat) (hi : i < 9) :
    is_valid_line b ⟨0, 0, 0, 0⟩ i = if LineOK b i then some ⟨0, 0, 0, 0⟩ else none := by
  unfold is_valid_line
  by_cases hz : ∃ j ∈ List.range 9, b i j = 0 ∨ b j i = 0
  · rw [scan_fold_none b i _ _ hz]
    have : ¬ LineOK b i := by
      rintro ⟨h, _⟩
      obtain ⟨j, hj, hj'⟩ := hz
      have := h j (List.mem_range.1 hj)
      tauto
    simp [this]
  · have hnz : ∀ j ∈ List.range 9, b i j ≠ 0 ∧ b j i ≠ 0 := by
      intro j hj
      constructor
      · intro h0; exact hz ⟨j, hj, Or.inl h0⟩
      · intro h0; exact hz ⟨j, hj, Or.inr h0⟩
    rw [scan_fold_some b i _ _ hnz]
    have hrow : ((List.range 9).map (fun j => b i j)).filter is_declared_cell
        = resolvedOf (valuesAt b (rowCells i)) := by
      rw [valuesAt_row]
      apply filter_declared_eq
      · intro v hv
        obtain ⟨j, hj, rfl⟩ := List.mem_map.1 hv
        exact hb i hi j (List.mem_range.1 hj)
      · intro v hv
        obtain ⟨j, hj, rfl⟩ := List.mem_map.1 hv
        exact (hnz j hj).1
    have hcol : ((List.range 9).map (fun j => b j i)).filter is_declared_cell
        = resolvedOf (valuesAt b (colCells i)) := by
      rw [valuesAt_col]
      apply filter_declared_eq
      · intro v hv
        obtain ⟨j, hj, rfl⟩ := List.mem_map.1 hv
        exact hb j (List.mem_range.1 hj) i hi
      · intro v hv
        obtain ⟨j, hj, rfl⟩ := List.mem_map.1 hv
        exact (hnz j hj).2
    rw [hrow, hcol]
    have hR := count_down_resolved (valuesAt b (rowCells i))
      (by intro v hv
          rw [valuesAt_row] at hv
          obtain ⟨j, hj, rfl⟩ := List.mem_map.1 hv
          exact hb i hi j (List.mem_range.1 hj))
      (by simp [valuesAt, rowCells])
    have hC := count_down_resolved (valuesAt b (colCells i))
      (by intro v hv
          rw [valuesAt_col] at hv
          obtain ⟨j, hj, rfl⟩ := List.mem_map.1 hv
          exact hb j (List.mem_range.1 hj) i hi)
      (by simp [valuesAt, colCells])
    simp only [Nat.zero_add, (hR _).1, (hC _).1]
    have hline : LineOK b i ↔
        (bitCount 32 (resolvedOf (valuesAt b (rowCells i))).sum
            = (resolvedOf (valuesAt b (rowCells i))).length ∧
         bitCount 32 (resolvedOf (valuesAt b (colCells i))).sum
            = (resolvedOf (valuesAt b (colCells i))).length) := by
      rw [(hR 0).2, (hC 0).2]
      unfold LineOK Distinct
      constructor
      · rintro ⟨_, h1, h2⟩; exact ⟨h1, h2⟩
      · rintro ⟨h1, h2⟩
        exact ⟨fun j hj => hnz j (List.mem_range.2 hj), h1, h2⟩
    by_cases hl : LineOK b i
    · have := hline.1 hl
      simp [hl, this.1, this.2]
    · have hne : ¬ (bitCount 32 (resolvedOf (valuesAt b (rowCells i))).sum
            = (resolvedOf (valuesAt b (rowCells i))).length ∧
         bitCount 32 (resolvedOf (valuesAt b (colCells i))).sum
            = (resolvedOf (valuesAt b (colCells i))).length) := fun h => hl (hline.2 h)
      simp only [hl, if_false]
      rw [if_pos]
      by_contra hcon
      apply hne
      simp only [not_or, not_not] at hcon
      constructor <;> omega

theorem lines_fold_eq (b : Board) (hb : InRange b) (is : List Nat) (h : ∀ i ∈ is, i < 9) :
    is.foldl (fun acc i => acc.bind (fun t => is_valid_line b t i)) (some ⟨0, 0, 0, 0⟩)
      = if ∀ i ∈ is, LineOK b i then some ⟨0, 0, 0, 0⟩ else none := by
  induction is with
  | nil => simp
  | cons i is ih =>
    rw [List.foldl_cons, Option.some_bind,
      is_valid_line_eq b hb i (h i (List.mem_cons_self _ _))]
    by_cases hl : LineOK b i
    · simp only [hl, if_true]
      rw [ih (fun i' hi' => h i' (List.mem_cons_of_mem _ hi'))]
      simp [hl]
    · simp only [hl, if_false]
      rw [fold_bind_none]
      simp [hl]

theorem box_tally_fold (vs : List Nat) (t : Nat × Int) :
    vs.foldl (fun (t : Nat × Int) v =>
        if is_declared_cell v then (t.1 + v, t.2 + 1) else t) t
      = (t.1 + (vs.filter is_declared_cell).sum, t.2 + (vs.filter is_declared_cell).length) := by
  induction vs generalizing t with
  | nil => simp
  | cons v vs ih =>
    rw [List.foldl_cons, ih]
    by_cases h : is_declared_cell v = true
    · simp [h, List.filter_cons]; constructor <;> omega
    · simp [h, List.filter_cons]

theorem is_valid_box_eq (b : Board) (hb : InRange b) (hz : NoZero b) (k l : Nat)
    (hk : k + 3 ≤ 9) (hl : l + 3 ≤ 9) :
    is_valid_box b (0, 0) k l = if Distinct b (boxCells k l) then some (0, 0) else none := by
  have hfold : (List.range' k 3).foldl (fun acc i =>
      (List.range' l 3).foldl (fun (t : Nat × Int) j =>
        if is_declared_cell (b i j) then (t.1 + b i j, t.2 + 1) else t) acc) ((0, 0) : Nat × Int)
      = (valuesAt b (boxCells k l)).foldl (fun (t : Nat × Int) v =>
        if is_declared_cell v then (t.1 + v, t.2 + 1) else t) (0, 0) := by
    simp only [List.range', boxCells, valuesAt, List.foldl_cons, List.foldl_nil, List.map_cons,
      List.map_nil]
  have hcells : ∀ p ∈ boxCells k l, p.1 < 9 ∧ p.2 < 9 := by
    intro p hp
    simp only [boxCells, List.mem_cons, List.mem_singleton, List.not_mem_nil, or_false] at hp
    rcases hp with h | h | h | h | h | h | h | h | h <;> subst h <;> constructor <;> simp <;> omega
  have hr : ∀ v ∈ valuesAt b (boxCells k l), v < 512 := by
    intro v hv
    obtain ⟨p, hp, rfl⟩ := List.mem_map.1 hv
    exact hb _ (hcells p hp).1 _ (hcells p hp).2
  have hnz : ∀ v ∈ valuesAt b (boxCells k l), v ≠ 0 := by
    intro v hv
    obtain ⟨p, hp, rfl⟩ := List.mem_map.1 hv
    exact hz _ (hcells p hp).1 _ (hcells p hp).2
  unfold is_valid_box
  simp only [hfold, box_tally_fold, filter_declared_eq _ hr hnz, Nat.zero_add]
  have hC := count_down_resolved (valuesAt b (boxCells k l)) hr (by simp [valuesAt, boxCells])
  simp only [(hC _).1]
  by_cases hd : Distinct b (boxCells k l)
  · have := (hC 0).2.2 hd
    simp [hd, this]
  · have hne : ¬ bitCount 32 (resolvedOf (valuesAt b (boxCells k l))).sum
        = (resolvedOf (valuesAt b (boxCells k l))).length := fun h => hd ((hC 0).2.1 h)
    simp only [hd, if_false]
    rw [if_pos]
    intro hcon
    apply hne
    omega

theorem boxes_fold_list (b : Board) (hb : InRange b) (hz : NoZero b)
    (ps : List (Nat × Nat)) (h : ∀ p ∈ ps, p.1 + 3 ≤ 9 ∧ p.2 + 3 ≤ 9) :
    ps.foldl (fun acc p => acc.bind (fun t => is_valid_box b t p.1 p.2)) (some (0, 0))
      = if ∀ p ∈ ps, Distinct b (boxCells p.1 p.2) then some (0, 0) else none := by
  induction ps with
  | nil => simp
  | cons p ps ih =>
    have hp := h p (List.mem_cons_self _ _)
    rw [List.foldl_cons, Option.some_bind, is_valid_box_eq b hb hz p.1 p.2 hp.1 hp.2]
    have hcons : (∀ q ∈ p :: ps, Distinct b (boxCells q.1 q.2)) ↔
        Distinct b (boxCells p.1 p.2) ∧ ∀ q ∈ ps, Distinct b (boxCells q.1 q.2) :=
      List.forall_mem_cons
    by_cases hd : Distinct b (boxCells p.1 p.2)
    · simp only [hd, if_true]
      rw [ih (fun p' hp' => h p' (List.mem_cons_of_mem _ hp'))]
      by_cases hrest : ∀ q ∈ ps, Distinct b (boxCells q.1 q.2)
      · rw [if_pos hrest, if_pos (hcons.2 ⟨hd, hrest⟩)]
      · rw [if_neg hrest, if_neg (fun hh => hrest (hcons.1 hh).2)]
    · simp only [hd, if_false]
      rw [fold_bind_none, if_neg (fun hh => hd (hcons.1 hh).1)]

theorem boxes_fold_eq (b : Board) (hb : InRange b) (hz : NoZero b) :
    [0, 3, 6].foldl (fun acc k =>
        [0, 3, 6].foldl (fun acc l => acc.bind (fun t => is_valid_box b t k l)) acc)
        (some (0, 0))
      = if ∀ k : Nat, k < 3 → ∀ l : Nat, l < 3 → Distinct b (boxCells (3 * k) (3 * l))
        then some (0, 0) else none := by
  have h := boxes_fold_list b hb hz
    [(0, 0), (0, 3), (0, 6), (3, 0), (3, 3), (3, 6), (6, 0), (6, 3), (6, 6)] (by
      intro p hp
      simp only [List.mem_cons, List.mem_singleton, List.not_mem_nil, or_false] at hp
      rcases hp with h | h | h | h | h | h | h | h | h <;> subst h <;> simp)
  have hiff : (∀ p ∈ [(0, 0), (0, 3), (0, 6), (3, 0), (3, 3), (3, 6), (6, 0), (6, 3), (6, 6)],
      Distinct b (boxCells p.1 p.2)) ↔
      ∀ k < 3, ∀ l < 3, Distinct b (boxCells (3 * k) (3 * l)) := by
    constructor
    · intro h k hk l hl
      interval_cases k <;> interval_cases l <;> exact h (_, _) (by simp)
    · intro h p hp
      simp only [List.mem_cons, List.mem_singleton, List.not_mem_nil, or_false] at hp
      rcases hp with e | e | e | e | e | e | e | e | e <;> subst e
      · exact h 0 (by omega) 0 (by omega)
      · exact h 0 (by omega) 1 (by omega)
      · exact h 0 (by omega) 2 (by omega)
      · exact h 1 (by omega) 0 (by omega)
      · exact h 1 (by omega) 1 (by omega)
      · exact h 1 (by omega) 2 (by omega)
      · exact h 2 (by omega) 0 (by omega)
      · exact h 2 (by omega) 1 (by omega)
      · exact h 2 (by omega) 2 (by omega)
  simp only [List.foldl_cons, List.foldl_nil] at h ⊢
  rw [h]
  by_cases hd : ∀ k < 3, ∀ l < 3, Distinct b (boxCells (3 * k) (3 * l))
  · rw [if_pos hd, if_pos (hiff.2 hd)]
  · rw [if_neg hd, if_neg (fun hh => hd (hiff.1 hh))]

theorem noZero_of_lines (b : Board) (h : ∀ i < 9, LineOK b i) : NoZero b :=
  fun i hi j hj => ((h i hi).1 j hj).1

theorem specValid_iff_lines (b : Board) :
    SpecValid b ↔ (∀ i < 9, LineOK b i) ∧
      ∀ k < 3, ∀ l < 3, Distinct b (boxCells (3 * k) (3 * l)) := by
  constructor
  · rintro ⟨hz, hr, hc, hbx⟩
    exact ⟨fun i hi => ⟨fun j hj => ⟨hz i hi j hj, hz j hj i hi⟩, hr i hi, hc i hi⟩, hbx⟩
  · rintro ⟨hl, hbx⟩
    exact ⟨noZero_of_lines b hl, fun i hi => (hl i hi).2.1, fun i hi => (hl i hi).2.2, hbx⟩

theorem is_valid_eq_true_iff (b : Board) (hb : InRange b) :
    is_valid b = true ↔ SpecValid b := by
  rw [specValid_iff_lines]
  unfold is_valid
  rw [lines_fold_eq b hb (List.range 9) (fun i hi => List.mem_range.1 hi)]
  by_cases hl : ∀ i ∈ List.range 9, LineOK b i
  · have hl' : ∀ i < 9, LineOK b i := fun i hi => hl i (List.mem_range.2 hi)
    rw [if_pos hl]
    simp only
    rw [boxes_fold_eq b hb (noZero_of_lines b hl')]
    by_cases hd : ∀ k < 3, ∀ l < 3, Distinct b (boxCells (3 * k) (3 * l))
    · rw [if_pos hd]
      exact ⟨fun _ => ⟨hl', hd⟩, fun _ => rfl⟩
    · rw [if_neg hd]
      exact ⟨fun h => (by cases h), fun h => absurd h.2 hd⟩
  · have hl' : ¬ ∀ i < 9, LineOK b i := fun h => hl (fun i hi => h i (List.mem_range.1 hi))
    rw [if_neg hl]
    simp [hl']

/-- C1: on a board with cells in 0..511, `is_valid` returns true exactly when
no cell is 0 and, in every row, column and 3x3 box, the cells with exactly one
bit set hold pairwise distinct values. -/
theorem C1_is_valid_iff (b : Board) (hb : InRange b) : is_valid b = true ↔ SpecValid b :=
  is_valid_eq_true_iff b hb

theorem C1_is_valid_iff_witness :
    InRange boardOpen ∧ (is_valid boardOpen = true ↔ SpecValid boardOpen) :=
  ⟨by decide, C1_is_valid_iff boardOpen (by decide)⟩

theorem scan_all_skipped (cells todo : List (Nat × Nat)) (b : Board)
    (h : ∀ p ∈ todo, skips (b p.1 p.2) = true) : scan cells todo b = b := by
  induction todo with
  | nil => rfl
  | cons p ps ih =>
    show scan cells ps (scan_step cells b p) = b
    have : scan_step cells b p = b := by
      unfold scan_step; rw [if_pos (h p (List.mem_cons_self _ _))]
    rw [this]
    exact ih (fun q hq => h q (List.mem_cons_of_mem _ hq))

theorem skips_of_allResolved (b : Board) (h : AllResolved b) (i j : Nat) (hi : i < 9)
    (hj : j < 9) : skips (b i j) = true := by
  obtain ⟨k, hk, e⟩ := h i hi j hj
  rw [e]
  exact skips_two_pow k (by omega)

theorem eliminate_row_resolved (b : Board) (h : AllResolved b) (r : Nat) (hr : r < 9) :
    eliminate_row b r = (false, b) := by
  have h2 : (eliminate_row b r).2 = b := by
    rw [eliminate_row_board]
    apply scan_all_skipped
    intro p hp
    simp only [rowCells, List.mem_map, List.mem_range] at hp
    obtain ⟨j, hj, rfl⟩ := hp
    exact skips_of_allResolved b h r j hr hj
  have h1 : (eliminate_row b r).1 = false := by
    by_contra hne
    have ht : (eliminate_row b r).1 = true := by simpa using hne
    exact eliminate_row_true b r ht 0 (by omega) (by rw [h2])
  exact Prod.ext h1 h2

theorem eliminate_col_resolved (b : Board) (h : AllResolved b) (c : Nat) (hc : c < 9) :
    eliminate_col b c = (false, b) := by
  have h2 : (eliminate_col b c).2 = b := by
    rw [eliminate_col_board]
    apply scan_all_skipped
    intro p hp
    simp only [colCells, List.mem_map, List.mem_range] at hp
    obtain ⟨j, hj, rfl⟩ := hp
    exact skips_of_allResolved b h j c hj hc
  have h1 : (eliminate_col b c).1 = false := by
    by_contra hne
    have ht : (eliminate_col b c).1 = true := by simpa using hne
    exact eliminate_col_true b c ht 0 (by omega) (by rw [h2])
  exact Prod.ext h1 h2

theorem boxCells_bound (r c : Nat) (hr : r < 9) (hc : c < 9) :
    ∀ p ∈ boxCells (3 * (r / 3)) (3 * (c / 3)), p.1 < 9 ∧ p.2 < 9 := by
  intro p hp
  simp only [boxCells, List.mem_cons, List.mem_singleton, List.not_mem_nil, or_false] at hp
  rcases hp with h | h | h | h | h | h | h | h | h <;> subst h <;> constructor <;>
    simp only <;> omega

theorem eliminate_box_resolved (b : Board) (h : AllResolved b) (r c : Nat) (hr : r < 9)
    (hc : c < 9) : eliminate_box b r c = (false, b) := by
  have h2 : (eliminate_box b r c).2 = b := by
    rw [eliminate_box_board]
    apply scan_all_skipped
    intro p hp
    have := boxCells_bound r c hr hc p hp
    exact skips_of_allResolved b h p.1 p.2 this.1 this.2
  have h1 : (eliminate_box b r c).1 = false := by
    by_contra hne
    have ht : (eliminate_box b r c).1 = true := by simpa using hne
    exact eliminate_box_true b r c hc ht (by rw [h2])
  exact Prod.ext h1 h2

theorem solve_round_resolved (b : Board) (h : AllResolved b) : solve_round b = (false, b) := by
  unfold solve_round
  simp only [List.range_succ, List.range_zero, List.nil_append, List.cons_append,
    List.foldl_cons, List.foldl_nil]
  simp [eliminate_row_resolved b h, eliminate_col_resolved b h, eliminate_box_resolved b h]

theorem distinct_of_eachOnce (b : Board) (h : AllResolved b) (cells : List (Nat × Nat))
    (hc : ∀ p ∈ cells, p.1 < 9 ∧ p.2 < 9) (ho : EachOnce b cells) : Distinct b cells := by
  unfold Distinct resolvedOf
  apply List.Nodup.filter
  rw [List.nodup_iff_count_le_one]
  intro a
  by_cases ha : a ∈ valuesAt b cells
  · obtain ⟨p, hp, rfl⟩ := List.mem_map.1 ha
    obtain ⟨k, hk, e⟩ := h p.1 (hc p hp).1 p.2 (hc p hp).2
    rw [e, ho k hk]
  · rw [List.count_eq_zero_of_not_mem ha]; omega

theorem specValid_of_completed (b : Board) (h : Completed b) : SpecValid b := by
  obtain ⟨hres, hrow, hcol, hbox⟩ := h
  refine ⟨?_, ?_, ?_, ?_⟩
  · intro i hi j hj
    obtain ⟨k, _, e⟩ := hres i hi j hj
    rw [e]; positivity
  · intro i hi
    apply distinct_of_eachOnce b hres _ _ (hrow i hi)
    intro p hp
    simp only [rowCells, List.mem_map, List.mem_range] at hp
    obtain ⟨j, hj, rfl⟩ := hp
    exact ⟨hi, hj⟩
  · intro j hj
    apply distinct_of_eachOnce b hres _ _ (hcol j hj)
    intro p hp
    simp only [colCells, List.mem_map, List.mem_range] at hp
    obtain ⟨i, hi, rfl⟩ := hp
    exact ⟨hi, hj⟩
  · intro k hk l hl
    apply distinct_of_eachOnce b hres _ _ (hbox k hk l hl)
    intro p hp
    have := boxCells_bound (3 * k) (3 * l) (by omega) (by omega) p
      (by rw [Nat.mul_div_cancel_left _ (by omega : 0 < 3),
            Nat.mul_div_cancel_left _ (by omega : 0 < 3)]; exact hp)
    exact this

theorem inRange_of_allResolved (b : Board) (h : AllResolved b) : InRange b := by
  intro i hi j hj
  obtain ⟨k, hk, e⟩ := h i hi j hj
  rw [e]
  calc 2 ^ k < 2 ^ 9 := Nat.pow_lt_pow_right (by omega) hk
    _ = 512 := by norm_num

/-- C9: on a completed board (every cell one of the nine single-bit masks, every
row, column and box containing each mask exactly once) `is_valid` returns true,
and `solve` returns true and hands back the same board. -/
theorem C9_completed_board (b : Board) (h : Completed b) (fuel : Nat) (hf : 0 < fuel) :
    is_valid b = true ∧ solve fuel b = some (true, b) := by
  have hv : is_valid b = true :=
    (is_valid_eq_true_iff b (inRange_of_allResolved b h.1)).2 (specValid_of_completed b h)
  refine ⟨hv, ?_⟩
  obtain ⟨n, rfl⟩ : ∃ n, fuel = n + 1 := ⟨fuel - 1, by omega⟩
  simp [solve, solve_loop, hv, solve_round_resolved b h.1]

set_option maxRecDepth 100000 in
theorem C9_completed_board_witness :
    Completed boardSolved ∧ is_valid boardSolved = true ∧
      solve 729 boardSolved = some (true, boardSolved) :=
  ⟨by decide!, C9_completed_board boardSolved (by decide!) 729 (by decide)⟩

theorem land_mod_two (m v : Nat) :
    (m &&& v) % 2 = if m % 2 = 1 ∧ v % 2 = 1 then 1 else 0 := by
  have h := Nat.testBit_land m v 0
  simp only [Nat.testBit_zero] at h
  have hx : (m &&& v) % 2 = 1 ↔ (m % 2 = 1 ∧ v % 2 = 1) := by
    constructor
    · intro hh
      have : decide ((m &&& v) % 2 = 1) = true := decide_eq_true hh
      rw [h] at this
      simpa using this
    · intro hh
      have : (decide (m % 2 = 1) && decide (v % 2 = 1)) = true := by simp [hh.1, hh.2]
      rw [← h] at this
      exact of_decide_eq_true this
  by_cases hc : m % 2 = 1 ∧ v % 2 = 1
  · rw [if_pos hc]; exact hx.2 hc
  · rw [if_neg hc]
    have : ¬ (m &&& v) % 2 = 1 := fun hh => hc (hx.1 hh)
    omega

theorem bitCount_land_le (w : Nat) : ∀ m v, bitCount w (m &&& v) ≤ bitCount w v := by
  induction w with
  | zero => intro m v; simp [bitCount]
  | succ w ih =>
    intro m v
    simp only [bitCount, Nat.and_div_two, land_mod_two]
    have := ih (m / 2) (v / 2)
    split <;> omega

theorem bitCount_land_lt (w : Nat) : ∀ m v, v < 2 ^ w → m &&& v ≠ v →
    bitCount w (m &&& v) < bitCount w v := by
  induction w with
  | zero =>
    intro m v hv hne
    have : v = 0 := by simpa using hv
    subst this
    simp at hne
  | succ w ih =>
    intro m v hv hne
    simp only [bitCount, Nat.and_div_two, land_mod_two]
    have hle := bitCount_land_le w (m / 2) (v / 2)
    have hv2 : v / 2 < 2 ^ w := by rw [pow_succ] at hv; omega
    by_cases hd : m / 2 &&& v / 2 = v / 2
    · have hmod : (m &&& v) % 2 ≠ v % 2 := by
        intro hm
        apply hne
        have hdiv : (m &&& v) / 2 = v / 2 := by rw [Nat.and_div_two, hd]
        omega
      rw [land_mod_two] at hmod
      split at hmod <;> split <;> omega
    · have := ih (m / 2) (v / 2) hv2 hd
      split <;> omega

theorem bitCount_le_width (w : Nat) : ∀ v, bitCount w v ≤ w := by
  induction w with
  | zero => intro v; simp [bitCount]
  | succ w ih =>
    intro v
    simp only [bitCount]
    have := ih (v / 2)
    omega

theorem bitCount_of_lt (n : Nat) : ∀ v m, v < 2 ^ n → n ≤ m → bitCount m v = bitCount n v := by
  induction n with
  | zero =>
    intro v m hv _
    have : v = 0 := by simpa using hv
    subst this
    simp [bitCount_zero]
  | succ n ih =>
    intro v m hv hm
    obtain ⟨m', rfl⟩ : ∃ m', m = m' + 1 := ⟨m - 1, by omega⟩
    simp only [bitCount]
    rw [ih (v / 2) m' (by rw [pow_succ] at hv; omega) (by omega)]

theorem bitCount_le_nine (v : Nat) (h : v < 512) : bitCount 32 v ≤ 9 := by
  rw [bitCount_of_lt 9 v 32 (by norm_num; exact h) (by omega)]
  exact bitCount_le_width 9 v

theorem narrows_inRange (b b' : Board) (h : Narrows b b') (hb : InRange b) : InRange b' := by
  intro i hi j hj
  rcases h i j with e | ⟨_, m, e⟩
  · rw [e]; exact hb i hi j hj
  · rw [e]; exact lt_of_le_of_lt Nat.and_le_right (hb i hi j hj)

theorem narrows_weight_le (b b' : Board) (h : Narrows b b') (cells : List (Nat × Nat)) :
    weight b' cells ≤ weight b cells := by
  unfold weight
  apply List.sum_le_sum
  intro p _
  rcases h p.1 p.2 with e | ⟨_, m, e⟩
  · rw [e]
  · rw [e]; exact bitCount_land_le 32 m _

theorem narrows_weight_lt (b b' : Board) (h : Narrows b b') (cells : List (Nat × Nat))
    (p : Nat × Nat) (hp : p ∈ cells) (hlt : b p.1 p.2 < 2 ^ 32)
    (hne : b' p.1 p.2 ≠ b p.1 p.2) : weight b' cells < weight b cells := by
  unfold weight
  apply List.sum_lt_sum
  · intro q _
    rcases h q.1 q.2 with e | ⟨_, m, e⟩
    · rw [e]
    · rw [e]; exact bitCount_land_le 32 m _
  · refine ⟨p, hp, ?_⟩
    rcases h p.1 p.2 with e | ⟨_, m, e⟩
    · exact absurd e hne
    · rw [e] at hne ⊢
      exact bitCount_land_lt 32 m _ hlt hne

theorem weight_keyCells_le (b : Board) (hb : InRange b) : weight b keyCells ≤ 81 := by
  unfold weight keyCells
  simp only [List.map_cons, List.map_nil, List.sum_cons, List.sum_nil]
  have h1 := bitCount_le_nine _ (hb 2 (by omega) 0 (by omega))
  have h2 := bitCount_le_nine _ (hb 2 (by omega) 3 (by omega))
  have h3 := bitCount_le_nine _ (hb 2 (by omega) 6 (by omega))
  have h4 := bitCount_le_nine _ (hb 5 (by omega) 0 (by omega))
  have h5 := bitCount_le_nine _ (hb 5 (by omega) 3 (by omega))
  have h6 := bitCount_le_nine _ (hb 5 (by omega) 6 (by omega))
  have h7 := bitCount_le_nine _ (hb 8 (by omega) 0 (by omega))
  have h8 := bitCount_le_nine _ (hb 8 (by omega) 3 (by omega))
  have h9 := bitCount_le_nine _ (hb 8 (by omega) 6 (by omega))
  omega

theorem unit_sum_none_declared (b : Board) (cells : List (Nat × Nat))
    (h : ∀ p ∈ cells, is_declared_cell (b p.1 p.2) = false) : unit_sum b cells = 0 := by
  unfold unit_sum
  generalize (0 : Nat) = s
  induction cells generalizing s with
  | nil => rfl
  | cons p ps ih =>
    rw [List.foldl_cons, h p (List.mem_cons_self _ _)]
    exact ih (fun q hq => h q (List.mem_cons_of_mem _ hq)) s

theorem mask_all_ones (v : Nat) (h : v < 512) : ((4294967295 - 0) &&& 0x1FF) &&& v = v := by
  have h1 : (4294967295 - 0) &&& 0x1FF = 2 ^ 9 - 1 := by decide
  rw [h1, Nat.land_comm, Nat.and_pow_two_sub_one_eq_mod]
  exact Nat.mod_eq_of_lt (by norm_num; exact h)

/-- In a unit without any zero or single-bit cell the first cell scanned keeps
its value. -/
theorem scan_head_unchanged (cells tail : List (Nat × Nat)) (p : Nat × Nat) (b : Board)
    (hc : cells = p :: tail) (hn : cells.Nodup)
    (hd : ∀ q ∈ cells, is_declared_cell (b q.1 q.2) = false) (hp : b p.1 p.2 < 512) :
    scan cells cells b p.1 p.2 = b p.1 p.2 := by
  subst hc
  have hnot : (p.1, p.2) ∉ tail := (List.nodup_cons.1 hn).1
  have hsum := unit_sum_none_declared b (p :: tail) hd
  show scan (p :: tail) tail (scan_step (p :: tail) b p) p.1 p.2 = _
  rw [scan_frame _ _ _ _ _ hnot]
  unfold scan_step
  split
  · rfl
  · rw [setCell_same, hsum, mask_all_ones _ hp]

theorem not_declared_of_changed (b b' : Board) (h : Narrows b b') (i j : Nat)
    (hne : b' i j ≠ b i j) : is_declared_cell (b i j) = false := by
  rcases h i j with e | ⟨hs, _⟩
  · exact absurd e hne
  · unfold skips at hs
    simp only [Bool.or_eq_false_iff] at hs
    exact hs.1

/-- With cells in 0..511 `eliminate_row` returns false. -/
theorem eliminate_row_false (b : Board) (hb : InRange b) (r : Nat) (hr : r < 9) :
    (eliminate_row b r).1 = false := by
  by_contra hne
  have ht : (eliminate_row b r).1 = true := by simpa using hne
  have hall := eliminate_row_true b r ht
  have hd : ∀ q ∈ rowCells r, is_declared_cell (b q.1 q.2) = false := by
    intro q hq
    simp only [rowCells, List.mem_map, List.mem_range] at hq
    obtain ⟨j, hj, rfl⟩ := hq
    exact not_declared_of_changed b _ (eliminate_row_narrows b r) r j (hall j hj)
  have := scan_head_unchanged (rowCells r)
    [(r, 1), (r, 2), (r, 3), (r, 4), (r, 5), (r, 6), (r, 7), (r, 8)] (r, 0) b
    (by simp [rowCells, List.range_succ_eq_map]) (rowCells_nodup r) hd (hb r hr 0 (by omega))
  rw [← eliminate_row_board] at this
  exact hall 0 (by omega) this

/-- With cells in 0..511 `eliminate_col` returns false. -/
theorem eliminate_col_false (b : Board) (hb : InRange b) (c : Nat) (hc : c < 9) :
    (eliminate_col b c).1 = false := by
  by_contra hne
  have ht : (eliminate_col b c).1 = true := by simpa using hne
  have hall := eliminate_col_true b c ht
  have hd : ∀ q ∈ colCells c, is_declared_cell (b q.1 q.2) = false := by
    intro q hq
    simp only [colCells, List.mem_map, List.mem_range] at hq
    obtain ⟨j, hj, rfl⟩ := hq
    exact not_declared_of_changed b _ (eliminate_col_narrows b c) j c (hall j hj)
  have := scan_head_unchanged (colCells c)
    [(1, c), (2, c), (3, c), (4, c), (5, c), (6, c), (7, c), (8, c)] (0, c) b
    (by simp [colCells, List.range_succ_eq_map]) (colCells_nodup c) hd (hb 0 (by omega) c hc)
  rw [← eliminate_col_board] at this
  exact hall 0 (by omega) this

theorem foldl_invariant {α β : Type} (P : α → Prop) (f : α → β → α) (l : List β) (a : α)
    (h0 : P a) (hstep : ∀ a x, x ∈ l → P a → P (f a x)) : P (l.foldl f a) := by
  induction l generalizing a with
  | nil => exact h0
  | cons x xs ih =>
    exact ih _ (hstep a x (List.mem_cons_self _ _) h0)
      (fun a' x' hx' => hstep a' x' (List.mem_cons_of_mem _ hx'))

theorem roundInv_keep (cells : List (Nat × Nat)) (b0 : Board) (st : Bool × Board)
    (h : RoundInv cells b0 st) (b' : Board) (hn : Narrows st.2 b') :
    RoundInv cells b0 (st.1, b') := by
  obtain ⟨h1, h2, h3⟩ := h
  exact ⟨Narrows.trans h1 hn, narrows_inRange _ _ hn h2,
    fun ht => lt_of_le_of_lt (narrows_weight_le _ _ hn cells) (h3 ht)⟩

theorem roundInv_drop (cells : List (Nat × Nat)) (b0 : Board) (st : Bool × Board)
    (h : RoundInv cells b0 st) (b' : Board) (hn : Narrows st.2 b') (flag : Bool)
    (hlt : weight b' cells < weight st.2 cells) :
    RoundInv cells b0 (flag, b') := by
  obtain ⟨h1, h2, _⟩ := h
  exact ⟨Narrows.trans h1 hn, narrows_inRange _ _ hn h2,
    fun _ => lt_of_lt_of_le hlt (narrows_weight_le _ _ h1 cells)⟩

theorem roundInv_row (cells : List (Nat × Nat)) (b0 : Board) (st : Bool × Board)
    (h : RoundInv cells b0 st) (i : Nat) (hi : i < 9) :
    RoundInv cells b0
      (if (eliminate_row st.2 i).1 then true else st.1, (eliminate_row st.2 i).2) := by
  rw [eliminate_row_false st.2 h.2.1 i hi]
  exact roundInv_keep cells b0 st h _ (eliminate_row_narrows st.2 i)

theorem roundInv_col (cells : List (Nat × Nat)) (b0 : Board) (st : Bool × Board)
    (h : RoundInv cells b0 st) (j : Nat) (hj : j < 9) :
    RoundInv cells b0
      (if (eliminate_col st.2 j).1 then true else st.1, (eliminate_col st.2 j).2) := by
  rw [eliminate_col_false st.2 h.2.1 j hj]
  exact roundInv_keep cells b0 st h _ (eliminate_col_narrows st.2 j)

theorem keyCells_mem : ∀ r < 9, ∀ c < 9, (3 * (r / 3) + 2, 3 * (c / 3)) ∈ keyCells := by
  decide

theorem roundInv_box (cells : List (Nat × Nat)) (hk : ∀ p ∈ keyCells, p ∈ cells)
    (b0 : Board) (st : Bool × Board) (h : RoundInv cells b0 st) (i j : Nat) (hi : i < 9)
    (hj : j < 9) :
    RoundInv cells b0
      (if (eliminate_box st.2 i j).1 then true else st.1, (eliminate_box st.2 i j).2) := by
  by_cases ht : (eliminate_box st.2 i j).1 = true
  · rw [if_pos ht]
    apply roundInv_drop cells b0 st h _ (eliminate_box_narrows st.2 i j)
    have hne := eliminate_box_true st.2 i j hj ht
    have hmem := hk _ (keyCells_mem i hi j hj)
    have hlt : st.2 (3 * (i / 3) + 2) (3 * (j / 3)) < 2 ^ 32 :=
      lt_trans (h.2.1 _ (by omega) _ (by omega)) (by norm_num)
    exact narrows_weight_lt _ _ (eliminate_box_narrows st.2 i j) cells _ hmem hlt hne
  · rw [if_neg ht]
    exact roundInv_keep cells b0 st h _ (eliminate_box_narrows st.2 i j)

/-- One round of `solve` on a board with cells in 0..511 narrows the board, and
when it sets `changed` the weight over `cells` strictly drops. -/
theorem solve_round_inv (cells : List (Nat × Nat)) (hk : ∀ p ∈ keyCells, p ∈ cells)
    (b : Board) (hb : InRange b) : RoundInv cells b (solve_round b) := by
  unfold solve_round
  have h0 : RoundInv cells b (false, b) :=
    ⟨Narrows.refl b, hb, fun h => by cases h⟩
  have h1 := foldl_invariant (RoundInv cells b)
    (fun (st : Bool × Board) i =>
      (if (eliminate_row st.2 i).1 then true else st.1, (eliminate_row st.2 i).2))
    (List.range 9) (false, b) h0
    (fun st i hi hst => roundInv_row cells b st hst i (List.mem_range.1 hi))
  have h2 := foldl_invariant (RoundInv cells b)
    (fun (st : Bool × Board) j =>
      (if (eliminate_col st.2 j).1 then true else st.1, (eliminate_col st.2 j).2))
    (List.range 9) _ h1
    (fun st j hj hst => roundInv_col cells b st hst j (List.mem_range.1 hj))
  have h369 : ∀ x ∈ [0, 3, 6], x < 9 := by decide
  exact foldl_invariant (RoundInv cells b) _ [0, 3, 6] _ h2
    (fun st i hi hst => foldl_invariant (RoundInv cells b) _ [0, 3, 6] st hst
      (fun st' j hj hst' => roundInv_box cells hk b st' hst' i j (h369 i hi) (h369 j hj)))

/-- The loop of `solve` stops after at most `W + 1` rounds when the weight of the
key cells is at most `W`, whatever loop bound above `W` is given. -/
theorem solve_loop_bounded (W : Nat) : ∀ b, InRange b → weight b keyCells ≤ W →
    ∃ n b', n ≤ W + 1 ∧ InRange b' ∧ Narrows b b' ∧
      ∀ fuel, W < fuel → solve_loop fuel b = some (n, b') := by
  induction W with
  | zero =>
    intro b hb hw
    obtain ⟨hn, hr, hlt⟩ := solve_round_inv keyCells (fun p hp => hp) b hb
    have hf : (solve_round b).1 = false := by
      by_contra hne
      have := hlt (by simpa using hne)
      omega
    refine ⟨1, (solve_round b).2, by omega, hr, hn, ?_⟩
    intro fuel hfuel
    obtain ⟨f, rfl⟩ : ∃ f, fuel = f + 1 := ⟨fuel - 1, by omega⟩
    simp [solve_loop, hf]
  | succ W ih =>
    intro b hb hw
    obtain ⟨hn, hr, hlt⟩ := solve_round_inv keyCells (fun p hp => hp) b hb
    by_cases hf : (solve_round b).1 = true
    · have hw' : weight (solve_round b).2 keyCells ≤ W := by
        have := hlt hf
        omega
      obtain ⟨n, b', hn', hr', hnar, hloop⟩ := ih (solve_round b).2 hr hw'
      refine ⟨n + 1, b', by omega, hr', Narrows.trans hn hnar, ?_⟩
      intro fuel hfuel
      obtain ⟨f, rfl⟩ : ∃ f, fuel = f + 1 := ⟨fuel - 1, by omega⟩
      simp [solve_loop, hf, hloop f (by omega)]
    · have hf' : (solve_round b).1 = false := by simpa using hf
      refine ⟨1, (solve_round b).2, by omega, hr, hn, ?_⟩
      intro fuel hfuel
      obtain ⟨f, rfl⟩ : ∃ f, fuel = f + 1 := ⟨fuel - 1, by omega⟩
      simp [solve_loop, hf']

theorem solve_loop_total (b : Board) (hb : InRange b) :
    ∃ n b', n ≤ 82 ∧ InRange b' ∧ Narrows b b' ∧
      ∀ fuel, 81 < fuel → solve_loop fuel b = some (n, b') :=
  solve_loop_bounded 81 b hb (weight_keyCells_le b hb)

/-- C7: on a board with cells in 0..511 `solve` terminates: its loop stops
after `n` rounds with `n` at most 729, for every loop bound of at least 729, and
`solve` then returns a result that does not depend on the bound. -/
theorem C7_solve_terminates (b : Board) (hb : InRange b) :
    ∃ n b' res, n ≤ 729 ∧ (∀ fuel, 729 ≤ fuel → solve_loop fuel b = some (n, b')) ∧
      (∀ fuel, 729 ≤ fuel → solve fuel b = some res) := by
  obtain ⟨n, b', hn, _, _, hloop⟩ := solve_loop_total b hb
  refine ⟨n, b', if is_valid b then (is_valid b', b') else (false, b), by omega,
    fun fuel hf => hloop fuel (by omega), ?_⟩
  intro fuel hf
  unfold solve
  by_cases hv : is_valid b = true
  · simp [hv, hloop fuel (by omega)]
  · have hv' : is_valid b = false := by simpa using hv
    simp [hv']

theorem C7_solve_terminates_witness :
    InRange boardOpen ∧
    ∃ n b' res, n ≤ 729 ∧ (∀ fuel, 729 ≤ fuel → solve_loop fuel boardOpen = some (n, b')) ∧
      (∀ fuel, 729 ≤ fuel → solve fuel boardOpen = some res) :=
  ⟨by decide, C7_solve_terminates boardOpen (by decide)⟩

set_option maxRecDepth 100000 in
theorem skips_iff_not_manyBits : ∀ v < 512, (skips v = true ↔ ¬ manyBits v) := by
  decide!

theorem list_sum_fold (vs : List Nat) (h : ∀ v ∈ vs, v < 512) :
    ∀ s, s + 511 * vs.length < 4294967296 →
      vs.foldl (fun s v => if is_declared_cell v then (s + v) % 4294967296 else s) s
        = s + (resolvedOf vs).sum := by
  induction vs with
  | nil => intro s _; simp [resolvedOf]
  | cons v vs ih =>
    intro s hs
    have hv := h v (List.mem_cons_self _ _)
    simp only [List.length_cons] at hs
    rw [List.foldl_cons]
    have hskip := skips_iff_not_manyBits v hv
    by_cases hd : is_declared_cell v = true
    · rw [if_pos hd, Nat.mod_eq_of_lt (by omega), ih (fun v hv => h v (List.mem_cons_of_mem _ hv))
        _ (by omega)]
      by_cases h0 : v = 0
      · subst h0
        have : ¬ oneBit 0 := by decide
        simp [resolvedOf, List.filter_cons, this]
      · have ho : oneBit v := (declared_iff_oneBit v hv h0).1 hd
        simp [resolvedOf, List.filter_cons, ho]; omega
    · rw [if_neg hd, ih (fun v hv => h v (List.mem_cons_of_mem _ hv)) _ (by omega)]
      have ho : ¬ oneBit v := by
        intro ho
        have := skips_of_oneBit v ho
        unfold skips at this
        have h0 : v ≠ 0 := by
          obtain ⟨k, _, e⟩ := ho
          rw [e]; positivity
        exact hd ((declared_iff_oneBit v hv h0).2 ho)
      simp [resolvedOf, List.filter_cons, ho]

theorem list_sum_eq (vs : List Nat) (h : ∀ v ∈ vs, v < 512) (hl : vs.length ≤ 9) :
    list_sum vs = (resolvedOf vs).sum := by
  unfold list_sum
  rw [list_sum_fold vs h 0 (by omega)]
  simp

theorem testBit_foldl_lor (l : List Nat) (s k : Nat) :
    (l.foldl (fun acc v => acc ||| v) s).testBit k = true ↔
      s.testBit k = true ∨ ∃ w ∈ l, w.testBit k = true := by
  induction l generalizing s with
  | nil => simp
  | cons v vs ih =>
    rw [List.foldl_cons, ih, Nat.testBit_lor, Bool.or_eq_true]
    simp only [List.mem_cons, exists_eq_or_imp]
    tauto

theorem resolved_sum_eq_mask (vs : List Nat) (hn : (resolvedOf vs).Nodup) :
    (resolvedOf vs).sum = resolvedMask vs := by
  have hmem : ∀ v ∈ resolvedOf vs, ∃ e < 32, v = 2 ^ e := by
    intro v hv
    have : v ∈ vs ∧ oneBit v := by simpa [resolvedOf] using hv
    exact this.2
  have hbits := (powers_nodup_bits 32 _ hmem hn).1
  apply Nat.eq_of_testBit_eq
  intro k
  rw [Bool.eq_iff_iff, hbits k]
  unfold resolvedMask
  rw [testBit_foldl_lor]
  simp only [Nat.zero_testBit, Bool.false_eq_true, false_or]
  constructor
  · intro h
    exact ⟨2 ^ k, h, Nat.testBit_two_pow_self⟩
  · rintro ⟨w, hw, hk⟩
    obtain ⟨e, _, rfl⟩ := hmem w hw
    rw [Nat.testBit_two_pow] at hk
    have : e = k := by simpa using hk
    rw [← this]; exact hw

theorem mask_eq_and_not (v s : Nat) (hv : v < 512) :
    ((4294967295 - s) &&& 0x1FF) &&& v = v &&& not32 s := by
  have h511 : (0x1FF : Nat) &&& v = v := by
    have : (0x1FF : Nat) = 2 ^ 9 - 1 := by norm_num
    rw [this, Nat.land_comm, Nat.and_pow_two_sub_one_eq_mod]
    exact Nat.mod_eq_of_lt (by norm_num; exact hv)
  rw [Nat.land_assoc, h511, Nat.land_comm]
  rfl

set_option maxRecDepth 100000 in
/-- C2, counterexample to the mask being the one of the start of the call: in
row 0 of `boardCascade` the first cell is narrowed from 3 to 2 during the call,
so the third cell loses both bits and ends as 508, not as `0x1FF & ~1 = 510`. -/
theorem C2_start_mask_refuted :
    InRange boardCascade ∧ (eliminate_row boardCascade 0).2 0 2 = 508 ∧
      ¬ UnitPostStart boardCascade (eliminate_row boardCascade 0).2 (rowCells 0) := by
  decide!

theorem resolvedOf_append (xs ys : List Nat) :
    resolvedOf (xs ++ ys) = resolvedOf xs ++ resolvedOf ys := by
  simp [resolvedOf]

theorem resolvedOf_cons_not (v : Nat) (vs : List Nat) (h : ¬ oneBit v) :
    resolvedOf (v :: vs) = resolvedOf vs := by
  simp [resolvedOf, List.filter_cons, h]

theorem resolvedOf_cons_one (v : Nat) (vs : List Nat) (h : oneBit v) :
    resolvedOf (v :: vs) = v :: resolvedOf vs := by
  simp [resolvedOf, List.filter_cons, h]

theorem mem_resolvedOf (v : Nat) (vs : List Nat) (h : v ∈ resolvedOf vs) : oneBit v := by
  have : v ∈ vs ∧ oneBit v := by simpa [resolvedOf] using h
  exact this.2

/-- A value masked with the complement of the sum of the distinct resolved values
of a list is none of these resolved values. -/
theorem masked_not_resolved (R : List Nat) (hR : ∀ w ∈ R, oneBit w) (hn : R.Nodup)
    (hs : R.sum < 4294967296) (v : Nat) :
    ((4294967295 - R.sum) &&& 0x1FF) &&& v ∉ R := by
  intro hmem
  obtain ⟨k, hk, e⟩ := hR _ hmem
  have hbits := (powers_nodup_bits 32 R hR hn).1
  have hset : R.sum.testBit k = true := (hbits k).2 (e ▸ hmem)
  have hk' : (((4294967295 - R.sum) &&& 0x1FF) &&& v).testBit k = true := by
    rw [e]; exact Nat.testBit_two_pow_self
  rw [Nat.testBit_land, Nat.testBit_land] at hk'
  simp only [Bool.and_eq_true] at hk'
  have hsub : 4294967295 - R.sum = 2 ^ 32 - (R.sum + 1) := by norm_num; omega
  have hlt : R.sum < 2 ^ 32 := by norm_num; exact hs
  rw [hsub, Nat.testBit_two_pow_sub_succ hlt] at hk'
  simp [hset] at hk'

theorem valuesAt_append (b : Board) (xs ys : List (Nat × Nat)) :
    valuesAt b (xs ++ ys) = valuesAt b xs ++ valuesAt b ys := by
  simp [valuesAt]

theorem valuesAt_cons (b : Board) (p : Nat × Nat) (ys : List (Nat × Nat)) :
    valuesAt b (p :: ys) = b p.1 p.2 :: valuesAt b ys := by
  simp [valuesAt]

theorem resolved_sum_lt (vs : List Nat) (h : ∀ v ∈ vs, v < 512) (hl : vs.length ≤ 9) :
    (resolvedOf vs).sum < 4294967296 := by
  have hmem : ∀ v ∈ resolvedOf vs, v < 512 := by
    intro v hv
    have : v ∈ vs ∧ oneBit v := by simpa [resolvedOf] using hv
    exact h v this.1
  have h1 := sum_le_of_lt (resolvedOf vs) hmem
  have h2 : (resolvedOf vs).length ≤ 9 := le_trans (List.length_filter_le _ _) hl
  have : 511 * (resolvedOf vs).length ≤ 511 * 9 := Nat.mul_le_mul_left _ h2
  omega

/-- Replacing an unresolved value of a unit by its masked value keeps the
resolved values pairwise distinct. -/
theorem list_step_distinct (A B : List Nat) (v : Nat)
    (h : ∀ w ∈ A ++ v :: B, w < 512) (hl : (A ++ v :: B).length ≤ 9)
    (hn : (resolvedOf (A ++ v :: B)).Nodup) (hs : skips v = false) :
    (resolvedOf (A ++ (((4294967295 - list_sum (A ++ v :: B)) &&& 0x1FF) &&& v) :: B)).Nodup := by
  have hv : ¬ oneBit v := by
    intro ho
    rw [skips_of_oneBit v ho] at hs
    cases hs
  have hres : resolvedOf (A ++ v :: B) = resolvedOf A ++ resolvedOf B := by
    rw [resolvedOf_append, resolvedOf_cons_not v B hv]
  rw [list_sum_eq _ h hl]
  have hnot := masked_not_resolved (resolvedOf (A ++ v :: B))
    (fun w hw => mem_resolvedOf w _ hw) hn (resolved_sum_lt _ h hl) v
  rw [hres] at hn hnot ⊢
  rw [resolvedOf_append]
  by_cases ho : oneBit (((4294967295 - (resolvedOf A ++ resolvedOf B).sum) &&& 0x1FF) &&& v)
  · rw [resolvedOf_cons_one _ B ho, List.nodup_middle]
    exact List.nodup_cons.2 ⟨hnot, hn⟩
  · rw [resolvedOf_cons_not _ B ho]
    exact hn

theorem scan_step_distinct (cells : List (Nat × Nat)) (hc : ∀ p ∈ cells, p.1 < 9 ∧ p.2 < 9)
    (hnd : cells.Nodup) (hl : cells.length ≤ 9) (b : Board) (hb : InRange b)
    (hd : Distinct b cells) (p : Nat × Nat) (hp : p ∈ cells) :
    Distinct (scan_step cells b p) cells := by
  by_cases hs : skips (b p.1 p.2) = true
  · have : scan_step cells b p = b := by unfold scan_step; rw [if_pos hs]
    rw [this]; exact hd
  · have hs' : skips (b p.1 p.2) = false := by simpa using hs
    obtain ⟨A, B, rfl⟩ := List.append_of_mem hp
    have hnd2 := List.nodup_append.1 hnd
    have hA : ∀ q ∈ A, (q.1, q.2) ≠ p := by
      intro q hq e
      exact hnd2.2.2 hq (e ▸ List.mem_cons_self _ _)
    have hB : ∀ q ∈ B, (q.1, q.2) ≠ p := by
      intro q hq e
      exact (List.nodup_cons.1 hnd2.2.1).1 (e ▸ hq)
    have hvals : valuesAt b (A ++ p :: B) = valuesAt b A ++ b p.1 p.2 :: valuesAt b B := by
      rw [valuesAt_append, valuesAt_cons]
    have hnew : valuesAt (scan_step (A ++ p :: B) b p) (A ++ p :: B)
        = valuesAt b A ++ (((4294967295 - list_sum (valuesAt b A ++ b p.1 p.2 :: valuesAt b B))
            &&& 0x1FF) &&& b p.1 p.2) :: valuesAt b B := by
      have hp2 : scan_step (A ++ p :: B) b p p.1 p.2
          = ((4294967295 - list_sum (valuesAt b A ++ b p.1 p.2 :: valuesAt b B))
            &&& 0x1FF) &&& b p.1 p.2 := by
        unfold scan_step
        rw [if_neg hs, setCell_same, unit_sum_eq_list_sum, hvals]
      rw [valuesAt_append, valuesAt_cons, hp2,
        valuesAt_congr b _ A (fun q hq => scan_step_frame _ b p q.1 q.2 (hA q hq)),
        valuesAt_congr b _ B (fun q hq => scan_step_frame _ b p q.1 q.2 (hB q hq))]
    unfold Distinct at hd ⊢
    rw [hnew]
    rw [hvals] at hd
    apply list_step_distinct _ _ _ _ _ hd hs'
    · intro w hw
      rw [← hvals] at hw
      obtain ⟨q, hq, rfl⟩ := List.mem_map.1 hw
      exact hb _ (hc q hq).1 _ (hc q hq).2
    · rw [← hvals]; simpa [valuesAt] using hl

theorem scan_distinct (cells : List (Nat × Nat)) (hc : ∀ p ∈ cells, p.1 < 9 ∧ p.2 < 9)
    (hnd : cells.Nodup) (hl : cells.length ≤ 9) (todo : List (Nat × Nat))
    (ht : ∀ p ∈ todo, p ∈ cells) (b : Board) (hb : InRange b) (hd : Distinct b cells) :
    Distinct (scan cells todo b) cells := by
  induction todo generalizing b with
  | nil => exact hd
  | cons p ps ih =>
    show Distinct (scan cells ps (scan_step cells b p)) cells
    apply ih (fun q hq => ht q (List.mem_cons_of_mem _ hq))
    · exact narrows_inRange _ _ (scan_step_narrows cells b p) hb
    · exact scan_step_distinct cells hc hnd hl b hb hd p (ht p (List.mem_cons_self _ _))

theorem scan_append (cells xs ys : List (Nat × Nat)) (b : Board) :
    scan cells (xs ++ ys) b = scan cells ys (scan cells xs b) := by
  unfold scan; rw [List.foldl_append]

/-- The state of the unit when the cell `p` is visited, and the value `p` gets. -/
theorem scan_at (pre post : List (Nat × Nat)) (p : Nat × Nat)
    (hnd : (pre ++ p :: post).Nodup) (b : Board) :
    scan (pre ++ p :: post) (pre ++ p :: post) b p.1 p.2
        = scan_step (pre ++ p :: post) (scan (pre ++ p :: post) pre b) p p.1 p.2 ∧
    valuesAt (scan (pre ++ p :: post) pre b) (pre ++ p :: post)
        = valuesAt (scan (pre ++ p :: post) (pre ++ p :: post) b) pre
            ++ valuesAt b (p :: post) ∧
    scan (pre ++ p :: post) pre b p.1 p.2 = b p.1 p.2 := by
  have hnd2 := List.nodup_append.1 hnd
  have hpre : (p.1, p.2) ∉ pre := fun h => hnd2.2.2 h (List.mem_cons_self _ _)
  have hpost : (p.1, p.2) ∉ post := (List.nodup_cons.1 hnd2.2.1).1
  have hfull : scan (pre ++ p :: post) (pre ++ p :: post) b
      = scan (pre ++ p :: post) post
          (scan_step (pre ++ p :: post) (scan (pre ++ p :: post) pre b) p) := by
    rw [scan_append]; rfl
  refine ⟨?_, ?_, scan_frame _ _ _ _ _ hpre⟩
  · rw [hfull, scan_frame _ _ _ _ _ hpost]
  · rw [valuesAt_append]
    congr 1
    · apply valuesAt_congr
      intro q hq
      have hq1 : (q.1, q.2) ∉ post := fun h => hnd2.2.2 hq (List.mem_cons_of_mem _ h)
      have hq2 : (q.1, q.2) ≠ p := fun h => hnd2.2.2 hq (h ▸ List.mem_cons_self _ _)
      rw [hfull, scan_frame _ _ _ _ _ hq1, scan_step_frame _ _ _ _ _ hq2]
    · apply valuesAt_congr
      intro q hq
      apply scan_frame
      intro h
      exact hnd2.2.2 h hq

/-- The contract of an eliminator on a unit whose resolved cells are pairwise
distinct when the call starts. -/
theorem scan_unitPostScan (cells : List (Nat × Nat)) (hc : ∀ p ∈ cells, p.1 < 9 ∧ p.2 < 9)
    (hnd : cells.Nodup) (hl : cells.length ≤ 9) (b : Board) (hb : InRange b)
    (hd : Distinct b cells) : UnitPostScan b (scan cells cells b) cells := by
  intro t ht
  have hget : cells.getD t (0, 0) = cells[t] := List.getD_eq_getElem _ _ ht
  have hsplit : cells = cells.take t ++ cells[t] :: cells.drop (t + 1) := by
    rw [← List.drop_eq_getElem_cons ht, List.take_append_drop]
  rw [hget]
  generalize hp : cells[t] = p at hsplit
  generalize hpre : cells.take t = pre at hsplit
  generalize hpost : cells.drop (t + 1) = post at hsplit
  have hdrop : cells.drop t = p :: post := by
    rw [List.drop_eq_getElem_cons ht, hp, hpost]
  have hunit : unitAt b (scan cells cells b) cells t
      = valuesAt (scan cells pre b) cells := by
    unfold unitAt
    rw [hpre, hdrop]
    have := (scan_at pre post p (hsplit ▸ hnd) b).2.1
    rw [← hsplit] at this
    exact this.symm
  have hat := (scan_at pre post p (hsplit ▸ hnd) b)
  rw [← hsplit] at hat
  have hmem_pre : ∀ q ∈ pre, q ∈ cells := by
    intro q hq
    rw [hsplit]; exact List.mem_append_left _ hq
  have hpmem : p ∈ cells := by
    rw [hsplit]; exact List.mem_append_right _ (List.mem_cons_self _ _)
  have hb1 : InRange (scan cells pre b) := narrows_inRange _ _ (scan_narrows _ _ _) hb
  have hd1 : Distinct (scan cells pre b) cells :=
    scan_distinct cells hc hnd hl pre hmem_pre b hb hd
  have hvals : ∀ v ∈ valuesAt (scan cells pre b) cells, v < 512 := by
    intro v hv
    obtain ⟨q, hq, rfl⟩ := List.mem_map.1 hv
    exact hb1 _ (hc q hq).1 _ (hc q hq).2
  have hlen : (valuesAt (scan cells pre b) cells).length ≤ 9 := by
    simpa [valuesAt] using hl
  have hsum : unit_sum (scan cells pre b) cells
      = resolvedMask (valuesAt (scan cells pre b) cells) := by
    rw [unit_sum_eq_list_sum, list_sum_eq _ hvals hlen, resolved_sum_eq_mask _ hd1]
  have hpv : b p.1 p.2 < 512 := hb _ (hc p hpmem).1 _ (hc p hpmem).2
  have hskip := skips_iff_not_manyBits _ hpv
  rw [hat.1, hunit]
  unfold scan_step
  rw [hat.2.2]
  constructor
  · intro hm
    have hs : ¬ skips (b p.1 p.2) = true := fun h => hskip.1 h hm
    rw [if_neg hs, setCell_same, hsum]
    exact mask_eq_and_not _ _ hpv
  · intro hm
    rw [if_pos (hskip.2 hm)]
    exact hat.2.2

theorem rowCells_bound (r : Nat) (hr : r < 9) : ∀ p ∈ rowCells r, p.1 < 9 ∧ p.2 < 9 := by
  intro p hp
  simp only [rowCells, List.mem_map, List.mem_range] at hp
  obtain ⟨j, hj, rfl⟩ := hp
  exact ⟨hr, hj⟩

theorem colCells_bound (c : Nat) (hc : c < 9) : ∀ p ∈ colCells c, p.1 < 9 ∧ p.2 < 9 := by
  intro p hp
  simp only [colCells, List.mem_map, List.mem_range] at hp
  obtain ⟨j, hj, rfl⟩ := hp
  exact ⟨hj, hc⟩

/-- C2, with the mask taken at visit time: on a board with cells in 0..511 and
at valid indices, each
eliminator whose unit starts with pairwise distinct resolved cells leaves the
unit thus: a cell with more than one bit set becomes `old & ~resolved`, where
`resolved` is the OR of the single-bit cells of the unit as it stands when that
cell is visited (cells earlier in scan order already hold their new values);
every other cell of the unit keeps its value. -/
theorem C2_unit_contract (b : Board) (hb : InRange b) (r c : Nat) (hr : r < 9) (hc : c < 9) :
    (Distinct b (rowCells r) → UnitPostScan b (eliminate_row b r).2 (rowCells r)) ∧
    (Distinct b (colCells c) → UnitPostScan b (eliminate_col b c).2 (colCells c)) ∧
    (Distinct b (boxCells (3 * (r / 3)) (3 * (c / 3))) →
      UnitPostScan b (eliminate_box b r c).2 (boxCells (3 * (r / 3)) (3 * (c / 3)))) := by
  refine ⟨fun hd => ?_, fun hd => ?_, fun hd => ?_⟩
  · rw [eliminate_row_board]
    exact scan_unitPostScan _ (rowCells_bound r hr) (rowCells_nodup r)
      (by simp [rowCells]) b hb hd
  · rw [eliminate_col_board]
    exact scan_unitPostScan _ (colCells_bound c hc) (colCells_nodup c)
      (by simp [colCells]) b hb hd
  · rw [eliminate_box_board]
    exact scan_unitPostScan _ (boxCells_bound r c hr hc) (boxCells_nodup _ _)
      (by simp [boxCells]) b hb hd

set_option maxRecDepth 100000 in
theorem C2_unit_contract_witness :
    InRange boardCascade ∧ Distinct boardCascade (rowCells 0) ∧
    Distinct boardCascade (colCells 0) ∧ Distinct boardCascade (boxCells 0 0) ∧
    UnitPostScan boardCascade (eliminate_row boardCascade 0).2 (rowCells 0) ∧
    UnitPostScan boardCascade (eliminate_col boardCascade 0).2 (colCells 0) ∧
    UnitPostScan boardCascade (eliminate_box boardCascade 0 0).2 (boxCells 0 0) :=
  ⟨by decide!, by decide!, by decide!, by decide!,
    (C2_unit_contract boardCascade (by decide!) 0 0 (by decide) (by decide)).1 (by decide!),
    (C2_unit_contract boardCascade (by decide!) 0 0 (by decide) (by decide)).2.1 (by decide!),
    (C2_unit_contract boardCascade (by decide!) 0 0 (by decide) (by decide)).2.2 (by decide!)⟩

theorem calls_fold (calls : List Call) (fl : Bool) (b : Board) :
    calls.foldl (fun (st : Bool × Board) c =>
        (if (runCall st.2 c).1 then true else st.1, (runCall st.2 c).2)) (fl, b)
      = (fl || (callFlags b calls).any id, boardAfter b calls) := by
  induction calls generalizing fl b with
  | nil => simp [callFlags, boardAfter]
  | cons c cs ih =>
    rw [List.foldl_cons, ih]
    cases h : (runCall b c).1 <;> cases fl <;> simp [callFlags, boardAfter, h]

/-- A round of `solve` is the 27 calls of `roundCalls` made in order; its flag is
set exactly when one of the calls returned true. -/
theorem solve_round_calls (b : Board) :
    solve_round b = ((callFlags b roundCalls).any id, boardAfter b roundCalls) := by
  have h := calls_fold roundCalls false b
  simp only [Bool.false_or] at h
  rw [← h]
  unfold solve_round roundCalls
  simp only [List.foldl_append, List.foldl_map, List.foldl_cons, List.foldl_nil, runCall]

theorem box_corner_idem (r : Nat) : 3 * (3 * (r / 3) / 3) = 3 * (r / 3) := by
  rw [Nat.mul_div_cancel_left _ (by omega : 0 < 3)]

theorem eliminate_box_corner (b : Board) (r c : Nat) :
    eliminate_box b r c = eliminate_box b (3 * (r / 3)) (3 * (c / 3)) := by
  unfold eliminate_box
  simp only [box_corner_idem]

/-- C11: for all `r`, `c` in 0..8, `eliminate_box` called with `(r, c)` returns
the same value and leaves the same board as when called with the top-left corner
`(3 * (r / 3), 3 * (c / 3))` of the block. -/
theorem C11_box_selected_by_any_member (b : Board) (r c : Nat) (_hr : r < 9) (_hc : c < 9) :
    (eliminate_box b r c).1 = (eliminate_box b (3 * (r / 3)) (3 * (c / 3))).1 ∧
    (eliminate_box b r c).2 = (eliminate_box b (3 * (r / 3)) (3 * (c / 3))).2 := by
  rw [← eliminate_box_corner]
  exact ⟨rfl, rfl⟩

theorem C11_box_selected_by_any_member_witness :
    (eliminate_box boardRow5 1 5).1 = (eliminate_box boardRow5 (3 * (1 / 3)) (3 * (5 / 3))).1 ∧
    (eliminate_box boardRow5 1 5).2 = (eliminate_box boardRow5 (3 * (1 / 3)) (3 * (5 / 3))).2 :=
  C11_box_selected_by_any_member boardRow5 1 5 (by decide) (by decide)

theorem eliminate_box_frame (b : Board) (r c i j : Nat)
    (h : ¬ (3 * (r / 3) ≤ i ∧ i ≤ 3 * (r / 3) + 2 ∧ 3 * (c / 3) ≤ j ∧ j ≤ 3 * (c / 3) + 2)) :
    (eliminate_box b r c).2 i j = b i j := by
  rw [eliminate_box_board]
  apply scan_frame
  intro hmem
  apply h
  simp only [boxCells, List.mem_cons, List.mem_singleton, List.not_mem_nil, or_false,
    Prod.mk.injEq] at hmem
  omega

/-- C12: for all `r`, `c` in 0..8, `eliminate_box` leaves unchanged every cell
outside rows `3*(r/3) .. 3*(r/3)+2` or outside columns `3*(c/3) .. 3*(c/3)+2`; in
particular the call with `(4, 4)` leaves unchanged every cell outside rows 3..5
or outside columns 3..5. -/
theorem C12_box_frame (b : Board) (r c i j : Nat) (_hr : r < 9) (_hc : c < 9)
    (h : ¬ (3 * (r / 3) ≤ i ∧ i ≤ 3 * (r / 3) + 2) ∨
         ¬ (3 * (c / 3) ≤ j ∧ j ≤ 3 * (c / 3) + 2)) :
    (eliminate_box b r c).2 i j = b i j ∧
    (¬ (3 ≤ i ∧ i ≤ 5) ∨ ¬ (3 ≤ j ∧ j ≤ 5) → (eliminate_box b 4 4).2 i j = b i j) := by
  refine ⟨eliminate_box_frame b r c i j (by tauto), fun h4 => ?_⟩
  apply eliminate_box_frame
  omega

theorem C12_box_frame_witness :
    (¬ (3 * (4 / 3) ≤ 2 ∧ 2 ≤ 3 * (4 / 3) + 2) ∨ ¬ (3 * (4 / 3) ≤ 4 ∧ 4 ≤ 3 * (4 / 3) + 2)) ∧
    (eliminate_box boardRow5 4 4).2 2 4 = boardRow5 2 4 ∧
    (¬ (3 ≤ 2 ∧ 2 ≤ 5) ∨ ¬ (3 ≤ 4 ∧ 4 ≤ 5) → (eliminate_box boardRow5 4 4).2 2 4 = boardRow5 2 4) :=
  ⟨by decide, C12_box_frame boardRow5 4 4 2 4 (by decide) (by decide) (by decide)⟩

theorem callFlags_all_false_iff (b : Board) (calls : List Call) :
    (callFlags b calls).any id = false ↔ ∀ f ∈ callFlags b calls, f = false := by
  simp [List.any_eq_false]

set_option maxRecDepth 100000 in
/-- C13: on the board whose top-left box holds the digits 1 to 8 all 27 calls of
a round return false, and yet the same round run again on the resulting board
changes the cell in row 2, column 3 from 319 to 63. -/
theorem C13_round_not_idempotent :
    InRange boardBox8 ∧ (∀ f ∈ callFlags boardBox8 roundCalls, f = false) ∧
    (solve_round boardBox8).2 2 3 = 319 ∧
    (solve_round (solve_round boardBox8).2).2 2 3 = 63 := by
  refine ⟨by decide!, ?_, by decide!, by decide!⟩
  rw [← callFlags_all_false_iff]
  have h : (solve_round boardBox8).1 = false := by decide!
  rw [solve_round_calls] at h
  exact h

theorem solve_invalid (b : Board) (h : is_valid b = false) (fuel : Nat) :
    solve fuel b = some (false, b) := by
  simp [solve, h]

theorem solve_false_again (b b' : Board) (fuel : Nat) (h : solve fuel b = some (false, b')) :
    ∀ fuel', solve fuel' b' = some (false, b') := by
  intro fuel'
  apply solve_invalid
  unfold solve at h
  by_cases hv : is_valid b = true
  · simp only [hv, Bool.not_true, Bool.false_eq_true, if_false] at h
    cases hl : solve_loop fuel b with
    | none => rw [hl] at h; simp at h
    | some p =>
      rw [hl] at h
      simp only [Option.map_some', Option.some.injEq, Prod.mk.injEq] at h
      rw [← h.2]; exact h.1
  · have hv' : is_valid b = false := by simpa using hv
    simp only [hv', Bool.not_false, if_true, Option.some.injEq, Prod.mk.injEq, true_and] at h
    rw [← h]; exact hv'

/-- C15: on a board with cells in 0..511, when `solve` returns false and leaves
the board `b'`, `solve` on `b'` returns false again and leaves `b'` as it is. -/
theorem C15_solve_failure_is_final (b b' : Board) (_hb : InRange b) (fuel : Nat)
    (h : solve fuel b = some (false, b')) :
    ∀ fuel', solve fuel' b' = some (false, b') :=
  solve_false_again b b' fuel h

set_option maxRecDepth 100000 in
theorem C15_solve_failure_is_final_witness :
    InRange boardConflict ∧ is_valid boardConflict = true ∧
    solve 729 boardConflict = some (false, (solve_round (solve_round boardConflict).2).2) ∧
    ∀ fuel', solve fuel' (solve_round (solve_round boardConflict).2).2
      = some (false, (solve_round (solve_round boardConflict).2).2) := by
  have h1 : is_valid boardConflict = true := by decide!
  have h2 : (solve_round boardConflict).1 = true := by decide!
  have h3 : (solve_round (solve_round boardConflict).2).1 = false := by decide!
  have h4 : is_valid (solve_round (solve_round boardConflict).2).2 = false := by decide!
  have hs : solve 729 boardConflict
      = some (false, (solve_round (solve_round boardConflict).2).2) := by
    simp [solve, solve_loop, h1, h2, h3, h4]
  exact ⟨by decide!, h1, hs, C15_solve_failure_is_final boardConflict _ (by decide!) 729 hs⟩

set_option maxRecDepth 100000 in
/-- C16: on the board whose 81 cells are all `0x1FF`, `solve` returns true and the
board it leaves still has a cell with more than one bit set. -/
theorem C16_success_without_completion :
    ∃ b b', InRange b ∧ solve 729 b = some (true, b') ∧
      ∃ i < 9, ∃ j < 9, manyBits (b' i j) := by
  have h1 : is_valid boardOpen = true := by decide!
  have h2 : (solve_round boardOpen).1 = false := by decide!
  have h3 : is_valid (solve_round boardOpen).2 = true := by decide!
  refine ⟨boardOpen, (solve_round boardOpen).2, by decide!, ?_, 0, by decide, 0, by decide,
    by decide!⟩
  simp [solve, solve_loop, h1, h2, h3]

/-- C18: `get_number` returns `d` for the single-bit mask of digit `d` and 0 for
the masks `0x1FF` and 0, but for the partially constrained mask 3 it returns 2,
not 0. -/
theorem C18_get_number_partial_mask :
    get_number (fun _ _ => 3) 0 0 = 2 ∧
    (∀ d, 1 ≤ d → d ≤ 9 → get_number (fun _ _ => 2 ^ (d - 1)) 0 0 = d) ∧
    get_number (fun _ _ => 0x1FF) 0 0 = 0 ∧ get_number (fun _ _ => 0) 0 0 = 0 := by
  refine ⟨by decide, ?_, by decide, by decide⟩
  intro d h1 h9
  interval_cases d <;> decide

theorem runCall_narrows (b : Board) (c : Call) : Narrows b (runCall b c).2 := by
  cases c with
  | row i => exact eliminate_row_narrows b i
  | col j => exact eliminate_col_narrows b j
  | box i j => exact eliminate_box_narrows b i j

theorem boardAfter_cons (b : Board) (c : Call) (cs : List Call) :
    boardAfter b (c :: cs) = boardAfter (runCall b c).2 cs := rfl

theorem boardAfter_append (b : Board) (xs ys : List Call) :
    boardAfter b (xs ++ ys) = boardAfter (boardAfter b xs) ys := by
  unfold boardAfter; rw [List.foldl_append]

theorem boardAfter_narrows (b : Board) (calls : List Call) :
    Narrows b (boardAfter b calls) := by
  induction calls generalizing b with
  | nil => exact Narrows.refl b
  | cons c cs ih => exact Narrows.trans (runCall_narrows b c) (ih _)

theorem boardAfter_inRange (b : Board) (hb : InRange b) (calls : List Call) :
    InRange (boardAfter b calls) :=
  narrows_inRange _ _ (boardAfter_narrows b calls) hb

/-- A call that returned true sits somewhere in the sequence. -/
theorem callFlags_true_split (calls : List Call) (b : Board)
    (h : ∃ f ∈ callFlags b calls, f = true) :
    ∃ pre c post, calls = pre ++ c :: post ∧ (runCall (boardAfter b pre) c).1 = true := by
  induction calls generalizing b with
  | nil => simp [callFlags] at h
  | cons c cs ih =>
    obtain ⟨f, hf, rfl⟩ := h
    simp only [callFlags, List.mem_cons] at hf
    rcases hf with hf | hf
    · exact ⟨[], c, cs, rfl, hf.symm⟩
    · obtain ⟨pre, c', post, he, ht⟩ := ih (runCall b c).2 ⟨true, hf, rfl⟩
      exact ⟨c :: pre, c', post, by rw [he]; rfl, ht⟩

theorem roundCalls_valid : ∀ c ∈ roundCalls, c.Valid := by
  intro c hc
  simp only [roundCalls, List.mem_append, List.mem_map, List.mem_range, List.mem_cons,
    List.mem_singleton, List.not_mem_nil, or_false] at hc
  rcases hc with (⟨i, hi, rfl⟩ | ⟨j, hj, rfl⟩) | h
  · exact hi
  · exact hj
  · rcases h with h | h | h | h | h | h | h | h | h <;> subst h <;> exact ⟨by omega, by omega⟩

/-- With cells in 0..511 a call of a round that returns true is a box call. -/
theorem round_true_is_box (b : Board) (hb : InRange b)
    (h : ∃ f ∈ callFlags b roundCalls, f = true) :
    ∃ pre i j post, roundCalls = pre ++ Call.box i j :: post ∧
      (eliminate_box (boardAfter b pre) i j).1 = true := by
  obtain ⟨pre, c, post, he, ht⟩ := callFlags_true_split roundCalls b h
  have hv : c.Valid := roundCalls_valid c (by rw [he]; simp)
  have hr := boardAfter_inRange b hb pre
  cases c with
  | row i =>
    have := eliminate_row_false _ hr i hv
    simp only [runCall] at ht
    rw [this] at ht; cases ht
  | col j =>
    have := eliminate_col_false _ hr j hv
    simp only [runCall] at ht
    rw [this] at ht; cases ht
  | box i j => exact ⟨pre, i, j, post, he, ht⟩

theorem keyCells_sub_allCells : ∀ p ∈ keyCells, p ∈ allCells := by decide

theorem round_weight_drop (b : Board) (hb : InRange b)
    (h : ∃ f ∈ callFlags b roundCalls, f = true) :
    weight (solve_round b).2 allCells < weight b allCells := by
  have hinv := solve_round_inv allCells keyCells_sub_allCells b hb
  apply hinv.2.2
  rw [solve_round_calls]
  obtain ⟨f, hf, rfl⟩ := h
  simp only [List.any_eq_true]
  exact ⟨true, hf, rfl⟩

/-- C17: on a board with cells in 0..511, when at least one of the 27 calls of a
round of `solve` returns true, the number of set bits summed over all 81 cells
is strictly smaller after the round than before it. -/
theorem C17_round_drops_bits (b : Board) (hb : InRange b)
    (h : ∃ f ∈ callFlags b roundCalls, f = true) :
    weight (solve_round b).2 allCells < weight b allCells :=
  round_weight_drop b hb h

set_option maxRecDepth 100000 in
theorem C17_round_drops_bits_witness :
    InRange boardConflict ∧ (∃ f ∈ callFlags boardConflict roundCalls, f = true) ∧
    weight (solve_round boardConflict).2 allCells < weight boardConflict allCells := by
  have h1 : (solve_round boardConflict).1 = true := by decide!
  have h2 : ∃ f ∈ callFlags boardConflict roundCalls, f = true := by
    rw [solve_round_calls] at h1
    simp only [List.any_eq_true] at h1
    obtain ⟨f, hf, hf'⟩ := h1
    exact ⟨f, hf, hf'⟩
  exact ⟨by decide!, h2, C17_round_drops_bits boardConflict (by decide!) h2⟩

/-- C19: on a board with cells in 0..511 and for every index in 0..8,
`eliminate_row` and `eliminate_col` return false; so when a round of `solve` sets
`changed`, one of its `eliminate_box` calls returned true. -/
theorem C19_row_col_always_false (b : Board) (hb : InRange b) (k : Nat) (hk : k < 9) :
    (eliminate_row b k).1 = false ∧ (eliminate_col b k).1 = false ∧
    ((solve_round b).1 = true →
      ∃ pre i j post, roundCalls = pre ++ Call.box i j :: post ∧
        (eliminate_box (boardAfter b pre) i j).1 = true) := by
  refine ⟨eliminate_row_false b hb k hk, eliminate_col_false b hb k hk, fun h => ?_⟩
  apply round_true_is_box b hb
  rw [solve_round_calls] at h
  simp only [List.any_eq_true] at h
  obtain ⟨f, hf, hf'⟩ := h
  exact ⟨f, hf, hf'⟩

theorem C19_row_col_always_false_witness :
    InRange boardRow5 ∧
    (eliminate_row boardRow5 0).1 = false ∧ (eliminate_col boardRow5 0).1 = false ∧
    ((solve_round boardRow5).1 = true →
      ∃ pre i j post, roundCalls = pre ++ Call.box i j :: post ∧
        (eliminate_box (boardAfter boardRow5 pre) i j).1 = true) :=
  ⟨by decide, C19_row_col_always_false boardRow5 (by decide) 0 (by decide)⟩

theorem resolved_sublist (b b' : Board) (h : Narrows b b') (cells : List (Nat × Nat)) :
    (resolvedOf (valuesAt b cells)).Sublist (resolvedOf (valuesAt b' cells)) := by
  induction cells with
  | nil => simp [valuesAt, resolvedOf]
  | cons p ps ih =>
    rw [valuesAt_cons, valuesAt_cons]
    by_cases ho : oneBit (b p.1 p.2)
    · have he : b' p.1 p.2 = b p.1 p.2 := narrows_skips b b' h _ _ (skips_of_oneBit _ ho)
      rw [he, resolvedOf_cons_one _ _ ho, resolvedOf_cons_one _ _ ho]
      exact List.Sublist.cons₂ _ ih
    · rw [resolvedOf_cons_not _ _ ho]
      by_cases ho' : oneBit (b' p.1 p.2)
      · rw [resolvedOf_cons_one _ _ ho']
        exact List.Sublist.cons _ ih
      · rw [resolvedOf_cons_not _ _ ho']
        exact ih

theorem distinct_of_narrows (b b' : Board) (h : Narrows b b') (cells : List (Nat × Nat))
    (hd : Distinct b' cells) : Distinct b cells :=
  List.Nodup.sublist (resolved_sublist b b' h cells) hd

theorem specValid_of_narrows (b b' : Board) (h : Narrows b b') (hv : SpecValid b') :
    SpecValid b := by
  obtain ⟨hz, hr, hc, hbx⟩ := hv
  refine ⟨?_, fun i hi => distinct_of_narrows b b' h _ (hr i hi),
    fun j hj => distinct_of_narrows b b' h _ (hc j hj),
    fun k hk l hl => distinct_of_narrows b b' h _ (hbx k hk l hl)⟩
  intro i hi j hj h0
  apply hz i hi j hj
  rw [narrows_skips b b' h i j (by rw [h0]; exact skips_zero), h0]

/-- A board that `is_valid` rejects stays rejected when it is narrowed. -/
theorem invalid_of_narrows (b b' : Board) (hb : InRange b) (h : Narrows b b')
    (hinv : is_valid b = false) : is_valid b' = false := by
  by_contra hne
  have ht : is_valid b' = true := by simpa using hne
  have hs := (is_valid_eq_true_iff b' (narrows_inRange b b' h hb)).1 ht
  have := (is_valid_eq_true_iff b hb).2 (specValid_of_narrows b b' h hs)
  rw [hinv] at this; cases this

theorem solve_round_narrows (b : Board) : Narrows b (solve_round b).2 := by
  rw [solve_round_calls]; exact boardAfter_narrows b roundCalls

theorem solve_loop_narrows (fuel : Nat) : ∀ (b : Board) (n : Nat) (b' : Board),
    solve_loop fuel b = some (n, b') → Narrows b b' := by
  induction fuel with
  | zero => intro b n b' h; simp [solve_loop] at h
  | succ fuel ih =>
    intro b n b' h
    unfold solve_loop at h
    by_cases hf : (solve_round b).1 = true
    · simp only [hf, if_true] at h
      cases hl : solve_loop fuel (solve_round b).2 with
      | none => rw [hl] at h; simp at h
      | some p =>
        rw [hl] at h
        simp only [Option.map_some', Option.some.injEq, Prod.mk.injEq] at h
        have := ih _ p.1 p.2 hl
        rw [h.2] at this
        exact Narrows.trans (solve_round_narrows b) this
    · simp only [hf, if_false, Bool.false_eq_true, Option.some.injEq, Prod.mk.injEq] at h
      rw [← h.2]; exact solve_round_narrows b

theorem roundStart_narrows (b b0 : Board) (h : RoundStart b b0) : Narrows b b0 := by
  induction h with
  | first b => exact Narrows.refl b
  | next b b' _ _ ih => exact Narrows.trans (solve_round_narrows b) ih

/-- The board the loop ends with narrows the board at the end of every round. -/
theorem solve_loop_after_round (b b0 : Board) (h : RoundStart b b0) :
    ∀ (fuel n : Nat) (b' : Board), solve_loop fuel b = some (n, b') →
      Narrows (solve_round b0).2 b' := by
  induction h with
  | first b =>
    intro fuel n b' hl
    cases fuel with
    | zero => simp [solve_loop] at hl
    | succ fuel =>
      unfold solve_loop at hl
      by_cases hf : (solve_round b).1 = true
      · simp only [hf, if_true] at hl
        cases hl' : solve_loop fuel (solve_round b).2 with
        | none => rw [hl'] at hl; simp at hl
        | some p =>
          rw [hl'] at hl
          simp only [Option.map_some', Option.some.injEq, Prod.mk.injEq] at hl
          have := solve_loop_narrows fuel _ p.1 p.2 hl'
          rw [hl.2] at this
          exact this
      · simp only [hf, if_false, Bool.false_eq_true, Option.some.injEq, Prod.mk.injEq] at hl
        rw [← hl.2]; exact Narrows.refl _
  | next b b0 hflag _ ih =>
    intro fuel n b' hl
    cases fuel with
    | zero => simp [solve_loop] at hl
    | succ fuel =>
      unfold solve_loop at hl
      simp only [hflag, if_true] at hl
      cases hl' : solve_loop fuel (solve_round b).2 with
      | none => rw [hl'] at hl; simp at hl
      | some p =>
        rw [hl'] at hl
        simp only [Option.map_some', Option.some.injEq, Prod.mk.injEq] at hl
        have := ih fuel p.1 p.2 hl'
        rw [hl.2] at this
        exact this

/-- Once a step of the propagation has produced a board that `is_valid`
rejects, `solve` returns false. -/
theorem solve_false_of_produced (input b : Board) (hin : InRange input)
    (hp : Produced input b) (hinv : is_valid b = false) (fuel : Nat) (res : Bool × Board)
    (hs : solve fuel input = some res) : res.1 = false := by
  obtain ⟨b0, pre, post, hstart, hsplit, rfl⟩ := hp
  have hb0 : InRange b0 := narrows_inRange _ _ (roundStart_narrows input b0 hstart) hin
  have hend : is_valid (solve_round b0).2 = false := by
    rw [solve_round_calls, hsplit, boardAfter_append]
    exact invalid_of_narrows _ _ (boardAfter_inRange b0 hb0 pre) (boardAfter_narrows _ post) hinv
  unfold solve at hs
  by_cases hv : is_valid input = true
  · simp only [hv, Bool.not_true, Bool.false_eq_true, if_false] at hs
    cases hl : solve_loop fuel input with
    | none => rw [hl] at hs; simp at hs
    | some p =>
      rw [hl] at hs
      simp only [Option.map_some', Option.some.injEq] at hs
      rw [← hs]
      have hn := solve_loop_after_round input b0 hstart fuel p.1 p.2 hl
      exact invalid_of_narrows _ _
        (narrows_inRange _ _ (solve_round_narrows b0) hb0) hn hend
  · have hv' : is_valid input = false := by simpa using hv
    simp only [hv', Bool.not_false, if_true, Option.some.injEq] at hs
    rw [← hs]

/-- C14: a board with cells in 0..511 that `is_valid` rejects is still rejected
after `eliminate_row`, `eliminate_col` or `eliminate_box` at a valid index; hence
when such a board is produced by a step of the propagation of `solve` on some
input with cells in 0..511, `solve` returns false on that input. -/
theorem C14_invalidity_persists (b : Board) (hb : InRange b) (hinv : is_valid b = false)
    (r c : Nat) (_hr : r < 9) (_hc : c < 9) :
    is_valid (eliminate_row b r).2 = false ∧ is_valid (eliminate_col b c).2 = false ∧
    is_valid (eliminate_box b r c).2 = false ∧
    ∀ input, InRange input → Produced input b →
      ∀ fuel res, solve fuel input = some res → res.1 = false :=
  ⟨invalid_of_narrows _ _ hb (eliminate_row_narrows b r) hinv,
   invalid_of_narrows _ _ hb (eliminate_col_narrows b c) hinv,
   invalid_of_narrows _ _ hb (eliminate_box_narrows b r c) hinv,
   fun input hin hp fuel res hs => solve_false_of_produced input b hin hp hinv fuel res hs⟩

set_option maxRecDepth 100000 in
theorem C14_invalidity_persists_witness :
    InRange (eliminate_row boardConflict 0).2 ∧
    is_valid (eliminate_row boardConflict 0).2 = false ∧
    is_valid (eliminate_row (eliminate_row boardConflict 0).2 0).2 = false ∧
    is_valid (eliminate_col (eliminate_row boardConflict 0).2 0).2 = false ∧
    is_valid (eliminate_box (eliminate_row boardConflict 0).2 0 0).2 = false ∧
    ∀ input, InRange input → Produced input (eliminate_row boardConflict 0).2 →
      ∀ fuel res, solve fuel input = some res → res.1 = false :=
  ⟨by decide!, by decide!,
    C14_invalidity_persists (eliminate_row boardConflict 0).2 (by decide!) (by decide!) 0 0
      (by decide) (by decide)⟩

theorem unitPerm_inj (S : Nat → Nat → Nat) (cells : List (Nat × Nat))
    (hS : ∀ p ∈ cells, 1 ≤ S p.1 p.2 ∧ S p.1 p.2 ≤ 9) (h : UnitPerm S cells) :
    ∀ p ∈ cells, ∀ q ∈ cells, S p.1 p.2 = S q.1 q.2 → p = q := by
  have hn : (digitsAt S cells).Nodup := by
    rw [List.nodup_iff_count_le_one]
    intro a
    by_cases ha : a ∈ digitsAt S cells
    · obtain ⟨p, hp, rfl⟩ := List.mem_map.1 ha
      have := hS p hp
      rw [h _ (by omega) this.1]
    · rw [List.count_eq_zero_of_not_mem ha]; omega
  intro p hp q hq e
  exact List.inj_on_of_nodup_map hn hp hq e

theorem unitOf_row (S : Nat → Nat → Nat) (h : IsSolution S) (r : Nat) (hr : r < 9) :
    UnitOf S (rowCells r) := by
  refine ⟨rowCells_bound r hr, rowCells_nodup r, by simp [rowCells], ?_⟩
  exact unitPerm_inj S _
    (fun p hp => h.1 _ (rowCells_bound r hr p hp).1 _ (rowCells_bound r hr p hp).2)
    (h.2.1 r hr)

theorem unitOf_col (S : Nat → Nat → Nat) (h : IsSolution S) (c : Nat) (hc : c < 9) :
    UnitOf S (colCells c) := by
  refine ⟨colCells_bound c hc, colCells_nodup c, by simp [colCells], ?_⟩
  exact unitPerm_inj S _
    (fun p hp => h.1 _ (colCells_bound c hc p hp).1 _ (colCells_bound c hc p hp).2)
    (h.2.2.1 c hc)

theorem unitOf_box (S : Nat → Nat → Nat) (h : IsSolution S) (r c : Nat) (hr : r < 9)
    (hc : c < 9) : UnitOf S (boxCells (3 * (r / 3)) (3 * (c / 3))) := by
  refine ⟨boxCells_bound r c hr hc, boxCells_nodup _ _, by simp [boxCells], ?_⟩
  exact unitPerm_inj S _
    (fun p hp => h.1 _ (boxCells_bound r c hr hc p hp).1 _ (boxCells_bound r c hr hc p hp).2)
    (h.2.2.2 (r / 3) (by omega) (c / 3) (by omega))

/-- A resolved cell of a board compatible with `S` holds the mask of the digit
of `S`. -/
theorem compatible_oneBit (S : Nat → Nat → Nat) (b : Board) (hc : Compatible S b)
    (i j : Nat) (hi : i < 9) (hj : j < 9) (k : Nat) (he : b i j = 2 ^ k) :
    k = S i j - 1 := by
  have := hc i hi j hj
  rw [he, Nat.testBit_two_pow] at this
  simpa using this

theorem compatible_distinct (S : Nat → Nat → Nat) (hS : IsSolution S) (b : Board)
    (hc : Compatible S b) (cells : List (Nat × Nat)) (hu : UnitOf S cells) :
    Distinct b cells := by
  obtain ⟨hgrid, hnd, _, hinj⟩ := hu
  unfold Distinct resolvedOf valuesAt
  rw [List.filter_map]
  apply List.Nodup.map_on _ (List.Nodup.filter _ hnd)
  intro p hp q hq e
  have hp' := List.mem_filter.1 hp
  have hq' := List.mem_filter.1 hq
  have ho : oneBit (b p.1 p.2) := by simpa using hp'.2
  obtain ⟨k, _, hk⟩ := ho
  have h1 := compatible_oneBit S b hc _ _ (hgrid p hp'.1).1 (hgrid p hp'.1).2 k hk
  have h2 := compatible_oneBit S b hc _ _ (hgrid q hq'.1).1 (hgrid q hq'.1).2 k (e ▸ hk)
  have hSp := hS.1 _ (hgrid p hp'.1).1 _ (hgrid p hp'.1).2
  have hSq := hS.1 _ (hgrid q hq'.1).1 _ (hgrid q hq'.1).2
  exact hinj p hp'.1 q hq'.1 (by omega)

theorem testBit_511 (k : Nat) (hk : k < 9) : (0x1FF : Nat).testBit k = true := by
  interval_cases k <;> decide

/-- One iteration of the first pass keeps the board compatible with `S`. -/
theorem scan_step_compatible (S : Nat → Nat → Nat) (hS : IsSolution S)
    (cells : List (Nat × Nat)) (hu : UnitOf S cells) (b : Board) (hb : InRange b)
    (hc : Compatible S b) (p : Nat × Nat) (hp : p ∈ cells) :
    Compatible S (scan_step cells b p) := by
  intro i hi j hj
  by_cases hij : (i, j) = p
  · subst hij
    unfold scan_step
    by_cases hs : skips (b i j) = true
    · simp only [hs, if_true]; exact hc i hi j hj
    · simp only [hs, if_false, Bool.false_eq_true, setCell_same]
      have hd := compatible_distinct S hS b hc cells hu
      have hvals : ∀ v ∈ valuesAt b cells, v < 512 := by
        intro v hv
        obtain ⟨q, hq, rfl⟩ := List.mem_map.1 hv
        exact hb _ (hu.1 q hq).1 _ (hu.1 q hq).2
      have hlen : (valuesAt b cells).length ≤ 9 := by simpa [valuesAt] using hu.2.2.1
      have hsum : unit_sum b cells = (resolvedOf (valuesAt b cells)).sum := by
        rw [unit_sum_eq_list_sum, list_sum_eq _ hvals hlen]
      have hlt : (resolvedOf (valuesAt b cells)).sum < 2 ^ 32 := by
        have := resolved_sum_lt _ hvals hlen
        norm_num; exact this
      have hbits := (powers_nodup_bits 32 (resolvedOf (valuesAt b cells))
        (fun w hw => mem_resolvedOf w _ hw) hd).1
      have hSij := hS.1 i hi j hj
      have hclear : (resolvedOf (valuesAt b cells)).sum.testBit (S i j - 1) = false := by
        by_contra hne
        have hset : (resolvedOf (valuesAt b cells)).sum.testBit (S i j - 1) = true := by
          simpa using hne
        have hmem := (hbits _).1 hset
        have hmem' : 2 ^ (S i j - 1) ∈ valuesAt b cells := by
          have : 2 ^ (S i j - 1) ∈ valuesAt b cells ∧ oneBit (2 ^ (S i j - 1)) := by
            simpa [resolvedOf] using hmem
          exact this.1
        obtain ⟨q, hq, hqv⟩ := List.mem_map.1 hmem'
        have hk := compatible_oneBit S b hc _ _ (hu.1 q hq).1 (hu.1 q hq).2 _ hqv
        have hSq := hS.1 _ (hu.1 q hq).1 _ (hu.1 q hq).2
        have hpq : q = (i, j) := hu.2.2.2 q hq (i, j) hp (by simp only; omega)
        subst hpq
        apply hs
        rw [hqv]
        exact skips_two_pow _ (by omega)
      rw [Nat.testBit_land, Nat.testBit_land, hc i hi j hj, testBit_511 _ (by omega), hsum]
      have hsub : 4294967295 - (resolvedOf (valuesAt b cells)).sum
          = 2 ^ 32 - ((resolvedOf (valuesAt b cells)).sum + 1) := by norm_num; omega
      rw [hsub, Nat.testBit_two_pow_sub_succ hlt, hclear]
      have : S i j - 1 < 32 := by omega
      simp [this]
  · rw [scan_step_frame cells b p i j hij]
    exact hc i hi j hj

theorem scan_compatible (S : Nat → Nat → Nat) (hS : IsSolution S)
    (cells : List (Nat × Nat)) (hu : UnitOf S cells) (todo : List (Nat × Nat))
    (ht : ∀ p ∈ todo, p ∈ cells) (b : Board) (hb : InRange b) (hc : Compatible S b) :
    Compatible S (scan cells todo b) := by
  induction todo generalizing b with
  | nil => exact hc
  | cons p ps ih =>
    show Compatible S (scan cells ps (scan_step cells b p))
    apply ih (fun q hq => ht q (List.mem_cons_of_mem _ hq))
    · exact narrows_inRange _ _ (scan_step_narrows cells b p) hb
    · exact scan_step_compatible S hS cells hu b hb hc p (ht p (List.mem_cons_self _ _))

theorem runCall_compatible (S : Nat → Nat → Nat) (hS : IsSolution S) (b : Board)
    (hb : InRange b) (hc : Compatible S b) (c : Call) (hv : c.Valid) :
    Compatible S (runCall b c).2 := by
  cases c with
  | row i =>
    simp only [runCall]
    rw [eliminate_row_board]
    exact scan_compatible S hS _ (unitOf_row S hS i hv) _ (fun p hp => hp) b hb hc
  | col j =>
    simp only [runCall]
    rw [eliminate_col_board]
    exact scan_compatible S hS _ (unitOf_col S hS j hv) _ (fun p hp => hp) b hb hc
  | box i j =>
    simp only [runCall]
    rw [eliminate_box_board]
    exact scan_compatible S hS _ (unitOf_box S hS i j hv.1 hv.2) _ (fun p hp => hp) b hb hc

theorem boardAfter_compatible (S : Nat → Nat → Nat) (hS : IsSolution S) (calls : List Call)
    (hv : ∀ c ∈ calls, c.Valid) (b : Board) (hb : InRange b) (hc : Compatible S b) :
    Compatible S (boardAfter b calls) := by
  induction calls generalizing b with
  | nil => exact hc
  | cons c cs ih =>
    rw [boardAfter_cons]
    apply ih (fun c' hc' => hv c' (List.mem_cons_of_mem _ hc'))
    · exact narrows_inRange _ _ (runCall_narrows b c) hb
    · exact runCall_compatible S hS b hb hc c (hv c (List.mem_cons_self _ _))

theorem solve_round_compatible (S : Nat → Nat → Nat) (hS : IsSolution S) (b : Board)
    (hb : InRange b) (hc : Compatible S b) : Compatible S (solve_round b).2 := by
  rw [solve_round_calls]
  exact boardAfter_compatible S hS roundCalls roundCalls_valid b hb hc

theorem solve_loop_compatible (S : Nat → Nat → Nat) (hS : IsSolution S) (fuel : Nat) :
    ∀ (b : Board) (n : Nat) (b' : Board), InRange b → Compatible S b →
      solve_loop fuel b = some (n, b') → Compatible S b' := by
  induction fuel with
  | zero => intro b n b' _ _ h; simp [solve_loop] at h
  | succ fuel ih =>
    intro b n b' hb hc h
    unfold solve_loop at h
    have hr := solve_round_compatible S hS b hb hc
    have hrb := narrows_inRange _ _ (solve_round_narrows b) hb
    by_cases hf : (solve_round b).1 = true
    · simp only [hf, if_true] at h
      cases hl : solve_loop fuel (solve_round b).2 with
      | none => rw [hl] at h; simp at h
      | some p =>
        rw [hl] at h
        simp only [Option.map_some', Option.some.injEq, Prod.mk.injEq] at h
        have := ih _ p.1 p.2 hrb hr hl
        rw [h.2] at this
        exact this
    · simp only [hf, if_false, Bool.false_eq_true, Option.some.injEq, Prod.mk.injEq] at h
      rw [← h.2]; exact hr

theorem solve_compatible (S : Nat → Nat → Nat) (hS : IsSolution S) (b : Board)
    (hb : InRange b) (hc : Compatible S b) (fuel : Nat) (res : Bool × Board)
    (hs : solve fuel b = some res) : Compatible S res.2 := by
  unfold solve at hs
  by_cases hv : is_valid b = true
  · simp only [hv, Bool.not_true, Bool.false_eq_true, if_false] at hs
    cases hl : solve_loop fuel b with
    | none => rw [hl] at hs; simp at hs
    | some p =>
      rw [hl] at hs
      simp only [Option.map_some', Option.some.injEq] at hs
      rw [← hs]
      exact solve_loop_compatible S hS fuel b p.1 p.2 hb hc hl
  · have hv' : is_valid b = false := by simpa using hv
    simp only [hv', Bool.not_false, if_true, Option.some.injEq] at hs
    rw [← hs]; exact hc

/-- C20: when a completed grid `S` is compatible with a board `b` with cells in
0..511, `S` is still compatible with the board after `eliminate_row`,
`eliminate_col` or `eliminate_box` at a valid index, and with the board that
`solve` leaves. -/
theorem C20_solution_survives (S : Nat → Nat → Nat) (b : Board) (hb : InRange b)
    (hS : IsSolution S) (hc : Compatible S b) (r c : Nat) (hr : r < 9) (hcol : c < 9) :
    Compatible S (eliminate_row b r).2 ∧ Compatible S (eliminate_col b c).2 ∧
    Compatible S (eliminate_box b r c).2 ∧
    ∀ fuel res, solve fuel b = some res → Compatible S res.2 :=
  ⟨runCall_compatible S hS b hb hc (Call.row r) hr,
   runCall_compatible S hS b hb hc (Call.col c) hcol,
   runCall_compatible S hS b hb hc (Call.box r c) ⟨hr, hcol⟩,
   fun fuel res hs => solve_compatible S hS b hb hc fuel res hs⟩

set_option maxRecDepth 100000 in
theorem C20_solution_survives_witness :
    InRange boardHint ∧ IsSolution gridSolved ∧ Compatible gridSolved boardHint ∧
    Compatible gridSolved (eliminate_row boardHint 0).2 ∧
    Compatible gridSolved (eliminate_col boardHint 0).2 ∧
    Compatible gridSolved (eliminate_box boardHint 0 0).2 ∧
    ∀ fuel res, solve fuel boardHint = some res → Compatible gridSolved res.2 :=
  ⟨by decide!, by decide!, by decide!,
    C20_solution_survives gridSolved boardHint (by decide!) (by decide!) (by decide!) 0 0
      (by decide) (by decide)⟩

theorem specValid_of_compatible (S : Nat → Nat → Nat) (hS : IsSolution S) (b : Board)
    (hc : Compatible S b) : SpecValid b := by
  refine ⟨?_, ?_, ?_, ?_⟩
  · intro i hi j hj h0
    have := hc i hi j hj
    rw [h0] at this
    simp at this
  · intro i hi
    exact compatible_distinct S hS b hc _ (unitOf_row S hS i hi)
  · intro j hj
    exact compatible_distinct S hS b hc _ (unitOf_col S hS j hj)
  · intro k hk l hl
    have := compatible_distinct S hS b hc _ (unitOf_box S hS (3 * k) (3 * l) (by omega) (by omega))
    rw [Nat.mul_div_cancel_left _ (by omega : 0 < 3),
      Nat.mul_div_cancel_left _ (by omega : 0 < 3)] at this
    exact this

theorem is_valid_of_compatible (S : Nat → Nat → Nat) (hS : IsSolution S) (b : Board)
    (hb : InRange b) (hc : Compatible S b) : is_valid b = true :=
  (is_valid_eq_true_iff b hb).2 (specValid_of_compatible S hS b hc)

/-- On a board with cells in 0..511 that is compatible with a completed grid,
`solve` stops and returns true. -/
theorem solve_true_of_compatible (S : Nat → Nat → Nat) (hS : IsSolution S) (b : Board)
    (hb : InRange b) (hc : Compatible S b) :
    ∃ b', InRange b' ∧ Compatible S b' ∧ ∀ fuel, 729 ≤ fuel → solve fuel b = some (true, b') := by
  obtain ⟨n, b', _, hb', _, hloop⟩ := solve_loop_total b hb
  have hc' : Compatible S b' :=
    solve_loop_compatible S hS 729 b n b' hb hc (hloop 729 (by omega))
  refine ⟨b', hb', hc', fun fuel hf => ?_⟩
  have hv := is_valid_of_compatible S hS b hb hc
  have hv' := is_valid_of_compatible S hS b' hb' hc'
  simp [solve, hv, hloop fuel (by omega), hv']

/-- C21: on a board with cells in 0..511 with which some completed Sudoku grid
is compatible, `solve` terminates and returns true (for every loop bound of at
least 729), and it never returns false whatever the bound. -/
theorem C21_solvable_never_fails (S : Nat → Nat → Nat) (b : Board) (hb : InRange b)
    (hS : IsSolution S) (hc : Compatible S b) :
    (∃ b', ∀ fuel, 729 ≤ fuel → solve fuel b = some (true, b')) ∧
    ∀ fuel res, solve fuel b = some res → res.1 = true := by
  obtain ⟨b', _, _, hsolve⟩ := solve_true_of_compatible S hS b hb hc
  refine ⟨⟨b', hsolve⟩, fun fuel res hs => ?_⟩
  have hcr := solve_compatible S hS b hb hc fuel res hs
  have hv := is_valid_of_compatible S hS b hb hc
  unfold solve at hs
  simp only [hv, Bool.not_true, Bool.false_eq_true, if_false] at hs
  cases hl : solve_loop fuel b with
  | none => rw [hl] at hs; simp at hs
  | some p =>
    rw [hl] at hs
    simp only [Option.map_some', Option.some.injEq] at hs
    have hn := solve_loop_narrows fuel b p.1 p.2 hl
    rw [← hs] at hcr ⊢
    exact is_valid_of_compatible S hS p.2 (narrows_inRange _ _ hn hb) hcr

set_option maxRecDepth 100000 in
theorem C21_solvable_never_fails_witness :
    InRange boardHint ∧ IsSolution gridSolved ∧ Compatible gridSolved boardHint ∧
    (∃ b', ∀ fuel, 729 ≤ fuel → solve fuel boardHint = some (true, b')) ∧
    ∀ fuel res, solve fuel boardHint = some res → res.1 = true :=
  ⟨by decide!, by decide!, by decide!,
    C21_solvable_never_fails gridSolved boardHint (by decide!) (by decide!) (by decide!)⟩

end Sudoku
